import Mathlib

/-!
Shallow embedding of the pygeoapi PostgreSQL extended provider
(repository Arkitektum/pygeoapi.provider.postgresql_ext, file
src/postgresql_ext/__init__.py), together with theorems settling the
frozen claims about its specification.

Conventions of the embedding:
* Python dictionaries are modelled as ordered association lists
  (`List (String × _)`), with first-match lookup and
  update-in-place-or-append assignment, mirroring insertion-ordered
  Python dicts.
* Fallible Python operations (dictionary subscripting that can raise
  `KeyError`) are modelled in the `Except PyErr` monad.
* Geometries are modelled for point payloads `(x, y)` with rational
  coordinates; `ogr` operations used by the source (`Transform`,
  `SwapXY`, `ExportToJson` with no options) become the corresponding
  pure functions.  `ExportToJson` is called by the source with no
  `COORDINATE_PRECISION` option, so serialization is modelled as the
  exact (full-precision) coordinates.
* The standard library functions `urllib.parse.urlsplit` and
  `urlunsplit` are modelled faithfully over `List Char`, following the
  CPython algorithm (scheme split, netloc split, fragment split before
  query split).  `urljoin` (used only for relative hrefs that do not
  start with a slash) is kept as an explicit function parameter.
* The `cachetools` TTL cache backing `_get_table_ids` is modelled by
  explicit state passing: the cached entry for the table is an
  `Option (List String)` and a fresh database query result is a
  `List String` parameter.
-/

namespace PgExt

/-- Model of Python values that occur in a record row or in a feature
property map: strings, integers, `None`, geometry payloads (a point
with rational coordinates, standing for the `WKBElement` of the
geometry column), nested dictionaries and lists. -/
inductive Value where
  | str (s : String)
  | int (n : Int)
  | vnull
  | geom (x : ℚ) (y : ℚ)
  | dict (entries : List (String × Value))
  | list (items : List Value)

/-- Python exceptions that the embedded code can raise. -/
inductive PyErr where
  | keyError (key : String)
  | typeError (msg : String)
deriving DecidableEq

/-- Python truthiness (`if item_dict.get(self.geom):` style tests) for
an optional dictionary entry: a missing key, `None`, an empty string,
zero, and empty containers are falsy. -/
def pyTruthy : Option Value → Bool
  | none => false
  | some .vnull => false
  | some (.str s) => !s.isEmpty
  | some (.int n) => n != 0
  | some (.geom _ _) => true
  | some (.dict es) => !es.isEmpty
  | some (.list xs) => !xs.isEmpty

/-- First-match lookup in an association list, the model of
`d.get(k)` / `k in d`. -/
def lookupVal : List (String × Value) → String → Option Value
  | [], _ => none
  | (k, v) :: rest, key => if k = key then some v else lookupVal rest key

/-- Removal of the first binding of a key, the model of the removal
part of `d.pop(k)`. -/
def removeKey : List (String × Value) → String → List (String × Value)
  | [], _ => []
  | (k, v) :: rest, key => if k = key then rest else (k, v) :: removeKey rest key

/-- Python dict assignment `d[k] = v`: overwrite the binding in place
if the key is present, otherwise append it (insertion order). -/
def setKey (m : List (String × Value)) (key : String) (v : Value) :
    List (String × Value) :=
  if (lookupVal m key).isSome then
    m.map (fun kv => if kv.1 = key then (key, v) else kv)
  else
    m ++ [(key, v)]

/-! ## Links and features -/

/-- Model of one link dictionary, restricted to the fields the source
reads and writes (`rel`, `type`, `href`); a missing key is `none`. -/
structure Link where
  rel : Option String := none
  type : Option String := none
  href : Option String := none
deriving DecidableEq

/-- The `(rel, href)` deduplication key used by `_merge_links`
(`link.get('rel'), link.get('href')`). -/
def linkKey (l : Link) : Option String × Option String := (l.rel, l.href)

/-- Model of an assembled feature document.  A `none` field models the
absence of the corresponding dictionary key; `geometry = some p` models
a serialized point geometry and `geometry = none` a JSON `null`
geometry (the `geometry` key itself is always written by
`_create_feature`). -/
structure Feature where
  ftype : String := "Feature"
  geometry : Option (ℚ × ℚ) := none
  id : Value := .vnull
  properties : Option (List (String × Value)) := none
  prev : Option String := none
  next : Option String := none
  links : Option (List Link) := none

/-! ## Identifier sequence cache and prev/next navigation
(`_get_table_ids`, `_find_identifier_index`, `_set_prev_and_next`) -/

/-- `_get_table_ids(table_model, id_field, session)` with its
`cachetools` TTL cache made explicit: `cache` is the current cache
entry for the table, `db` is the ascending stringified identifier list
a fresh query would return.  Returns the list used together with the
cache entry afterwards (a miss computes and stores the fresh list). -/
def getTableIds (cache : Option (List String)) (db : List String) :
    List String × Option (List String) :=
  match cache with
  | some ids => (ids, some ids)
  | none => (db, some db)

/-- `_find_identifier_index(ids, identifier)`: `ids.index(identifier)`
with the `ValueError` turned into `None`. -/
def findIdentifierIndex : List String → String → Option Nat
  | [], _ => none
  | x :: xs, identifier =>
    if x = identifier then some 0
    else (findIdentifierIndex xs identifier).map (· + 1)

/-- Total list indexing used to express the Python subscripts
`ids[k]` of `_set_prev_and_next` (which are all in bounds there). -/
def getS : List String → Nat → String
  | [], _ => ""
  | x :: _, 0 => x
  | _ :: rest, j + 1 => getS rest j

/-- The `prev` element computed by `_set_prev_and_next` from the
cached list and a found index (`ids[0]` for a singleton, `ids[-1]` for
the first element, `ids[index - 1]` otherwise). -/
def prevAt (ids : List String) (i : Nat) : String :=
  if ids.length = 1 then getS ids 0
  else if i = 0 then getS ids (ids.length - 1)
  else getS ids (i - 1)

/-- The `next` element computed by `_set_prev_and_next` (`ids[0]` for a
singleton, `ids[0]` after the last element, `ids[index + 1]`
otherwise). -/
def nextAt (ids : List String) (i : Nat) : String :=
  if ids.length = 1 then getS ids 0
  else if i + 1 = ids.length then getS ids 0
  else getS ids (i + 1)

/-- Navigation from an identifier: the index lookup of
`_set_prev_and_next` followed by its `prev` computation. -/
def prevId (ids : List String) (identifier : String) : Option String :=
  (findIdentifierIndex ids identifier).map (prevAt ids)

/-- Navigation from an identifier: the index lookup of
`_set_prev_and_next` followed by its `next` computation. -/
def nextId (ids : List String) (identifier : String) : Option String :=
  (findIdentifierIndex ids identifier).map (nextAt ids)

/-- Result of running `_set_prev_and_next`: the (possibly updated)
feature, the cache entry afterwards, how many cache rebuilds were
attempted, and whether the missing-identifier warning was logged. -/
structure NavResult where
  feature : Feature
  cacheAfter : Option (List String)
  rebuilds : Nat
  warned : Bool

/-- `_set_prev_and_next(identifier, feature, session)`.  The stringified
identifier is looked up in the cached sequence; on a miss the cache
entry is popped and `_get_table_ids` is invoked once more (one rebuild,
which recomputes from `db`); if the identifier is still absent a warning
is logged and the feature is returned untouched, otherwise the circular
`prev`/`next` fields are attached. -/
def setPrevAndNext (identifier : String) (feature : Feature)
    (cache : Option (List String)) (db : List String) : NavResult :=
  let (ids, cache₁) := getTableIds cache db
  match findIdentifierIndex ids identifier with
  | some i =>
    { feature := { feature with prev := some (prevAt ids i), next := some (nextAt ids i) }
      cacheAfter := cache₁, rebuilds := 0, warned := false }
  | none =>
    -- cache.pop(cache_key, None) followed by a second _get_table_ids call
    let (ids₂, cache₂) := getTableIds none db
    match findIdentifierIndex ids₂ identifier with
    | some i =>
      { feature := { feature with prev := some (prevAt ids₂ i), next := some (nextAt ids₂ i) }
        cacheAfter := cache₂, rebuilds := 1, warned := false }
    | none =>
      { feature := feature, cacheAfter := cache₂, rebuilds := 1, warned := true }

/-! ## Model of `urllib.parse.urlsplit` / `urlunsplit`

Follows the CPython algorithm: optional scheme split at the first `:`
(only when the prefix is a nonempty run of scheme characters starting
with an ASCII letter; the scheme is lowercased), netloc split after a
leading `//` up to the first of `/`, `?`, `#`, then the fragment split
at the first `#`, then the query split at the first `?`.  The IPv6
bracket validation and control-character stripping of CPython are not
modelled (no claim involves such inputs). -/

/-- `c.isascii() and c.isalpha()` of CPython: an ASCII letter. -/
def isAsciiAlpha (c : Char) : Bool :=
  (65 ≤ c.toNat && c.toNat ≤ 90) || (97 ≤ c.toNat && c.toNat ≤ 122)

/-- An ASCII digit. -/
def isAsciiDigit (c : Char) : Bool := 48 ≤ c.toNat && c.toNat ≤ 57

/-- Characters allowed in a URL scheme (`scheme_chars` of CPython):
ASCII letters, digits, `+`, `-`, `.`. -/
def schemeChar (c : Char) : Bool :=
  isAsciiAlpha c || isAsciiDigit c || c = '+' || c = '-' || c = '.'

/-- Split a character list at the first character satisfying `p`:
the prefix before it and the suffix starting with it (the whole list
and `[]` when no character matches). -/
def splitAtFirst (p : Char → Bool) : List Char → List Char × List Char
  | [] => ([], [])
  | c :: cs =>
    if p c then ([], c :: cs)
    else
      let r := splitAtFirst p cs
      (c :: r.1, r.2)

/-- The five components returned by `urlsplit`. -/
structure SplitResult where
  scheme : List Char
  netloc : List Char
  path : List Char
  query : List Char
  fragment : List Char
deriving DecidableEq

/-- `str.lower()` on the scheme candidate. -/
def lowerAll (l : List Char) : List Char := l.map Char.toLower

/-- The scheme-splitting step of `urlsplit`: at the first `:`, provided
the prefix before it is nonempty, starts with an ASCII letter and
consists of scheme characters, the scheme is that prefix lowercased and
the rest is everything after the `:`. -/
def splitSchemeL (url : List Char) : List Char × List Char :=
  match splitAtFirst (· = ':') url with
  | (pre, _ :: post) =>
    if !pre.isEmpty && isAsciiAlpha (pre.headD ' ') && pre.all schemeChar then
      (lowerAll pre, post)
    else ([], url)
  | (_, []) => ([], url)

/-- Delimiters ending the netloc (`_splitnetloc` scans for the first of
`/`, `?`, `#`). -/
def netlocDelim (c : Char) : Bool := c = '/' || c = '?' || c = '#'

/-- The netloc-splitting step of `urlsplit`: only when the remaining
url starts with `//`. -/
def splitNetlocL (url : List Char) : List Char × List Char :=
  match url with
  | '/' :: '/' :: rest => splitAtFirst netlocDelim rest
  | _ => ([], url)

/-- `url.split(ch, 1)` when `ch` occurs, otherwise `(url, '')` — used
for the fragment (`#`) and query (`?`) splits. -/
def splitTailAt (ch : Char) (url : List Char) : List Char × List Char :=
  match splitAtFirst (· = ch) url with
  | (pre, _ :: post) => (pre, post)
  | (_, []) => (url, [])

/-- `urllib.parse.urlsplit` over character lists. -/
def urlsplitL (url : List Char) : SplitResult :=
  let s1 := splitSchemeL url
  let s2 := splitNetlocL s1.2
  let s3 := splitTailAt '#' s2.2
  let s4 := splitTailAt '?' s3.1
  ⟨s1.1, s2.1, s4.1, s4.2, s3.2⟩

/-- `urllib.parse.urlunsplit` over character lists (CPython: re-attach
`//netloc` when a netloc is present or the path starts with `//`, then
`scheme:`, then `?query` and `#fragment` when nonempty). -/
def urlunsplitL (r : SplitResult) : List Char :=
  let url := r.path
  let url :=
    if !r.netloc.isEmpty || url.take 2 = ['/', '/'] then
      ('/' :: '/' :: r.netloc) ++
        (if !url.isEmpty && url.headD ' ' ≠ '/' then '/' :: url else url)
    else url
  let url := if !r.scheme.isEmpty then r.scheme ++ ':' :: url else url
  let url := if !r.query.isEmpty then url ++ '?' :: r.query else url
  if !r.fragment.isEmpty then url ++ '#' :: r.fragment else url

/-! ## Base URL derivation and link resolution
(`_derive_base_href`, `_normalize_base_href`, `_is_absolute_href`,
`_resolve_link_href`, `_prepare_link`, `_get_link_base_href`,
`_merge_links`) -/

/-- The fixed path marker `'/collections/'` of `_derive_base_href`. -/
def marker : List Char :=
  ['/', 'c', 'o', 'l', 'l', 'e', 'c', 't', 'i', 'o', 'n', 's', '/']

/-- Prefix test on character lists. -/
def isPrefixL : List Char → List Char → Bool
  | [], _ => true
  | _ :: _, [] => false
  | p :: ps, c :: cs => p = c && isPrefixL ps cs

/-- `marker in path`. -/
def containsMarker : List Char → Bool
  | [] => false
  | c :: cs => isPrefixL marker (c :: cs) || containsMarker cs

/-- `path[:path.index(marker)]` when the marker occurs, the whole path
otherwise (truncation at the first occurrence). -/
def cutAtMarkerL : List Char → List Char
  | [] => []
  | c :: cs => if isPrefixL marker (c :: cs) then [] else c :: cutAtMarkerL cs

/-- `path.rstrip('/')`. -/
def rstripSlashL (l : List Char) : List Char :=
  (l.reverse.dropWhile (· = '/')).reverse

/-- The `path = parts.path or '/'` / marker-truncation /
`if not path: path = '/'` block of `_derive_base_href`. -/
def cutPathAtMarker (p : List Char) : List Char :=
  let path0 := if p.isEmpty then ['/'] else p
  let path1 := if containsMarker path0 then cutAtMarkerL path0 else path0
  if path1.isEmpty then ['/'] else path1

/-- The `path.rstrip('/')` / `if not path: path = '/'` /
`if not path.endswith('/'): path += '/'` block of
`_derive_base_href`. -/
def ensureSingleTrailingSlash (p : List Char) : List Char :=
  let path3 := rstripSlashL p
  let path4 := if path3.isEmpty then ['/'] else path3
  if path4.getLastD ' ' = '/' then path4 else path4 ++ ['/']

/-- The whole path-normalization pipeline of `_derive_base_href`. -/
def deriveBasePath (p : List Char) : List Char :=
  ensureSingleTrailingSlash (cutPathAtMarker p)

/-- `_derive_base_href(url)`: require a scheme and netloc, truncate the
path at the first `'/collections/'`, normalize the empty path to `/`,
strip trailing slashes and ensure exactly one, drop query and
fragment. -/
def deriveBaseHrefL (url : List Char) : Option (List Char) :=
  if url.isEmpty then none
  else
    let parts := urlsplitL url
    if parts.scheme.isEmpty || parts.netloc.isEmpty then none
    else
      some (urlunsplitL ⟨parts.scheme, parts.netloc, deriveBasePath parts.path, [], []⟩)

/-- `_derive_base_href` on optional strings (`if not url: return None`). -/
def deriveBaseHref (url : Option String) : Option String :=
  match url with
  | none => none
  | some s => (deriveBaseHrefL s.toList).map List.asString

/-- `_normalize_base_href(base_href)`: `None` for a falsy input, else
`_derive_base_href(str(base_href))` (the embedded derivation does not
raise, so the `except` branch is unreachable). -/
def normalizeBaseHref (baseHref : Option String) : Option String :=
  match baseHref with
  | none => none
  | some s => if s.isEmpty then none else deriveBaseHref (some s)

/-- `_is_absolute_href(href)`: nonempty with both scheme and netloc. -/
def isAbsoluteHref (href : Option String) : Bool :=
  match href with
  | none => false
  | some s =>
    if s.isEmpty then false
    else
      let parts := urlsplitL s.toList
      !parts.scheme.isEmpty && !parts.netloc.isEmpty

/-- `_resolve_link_href(target, base_href)`.  `urljoin` (used only for
relative hrefs not starting with `/`) is the explicit model of
`urllib.parse.urljoin`. -/
def resolveLinkHref (urljoin : String → String → String)
    (target : String) (baseHref : Option String) : String :=
  if target.isEmpty then ""
  else
    let tp := urlsplitL target.toList
    if !tp.scheme.isEmpty then target
    else
      match baseHref with
      | some b =>
        if !b.isEmpty then
          let bp := urlsplitL b.toList
          if tp.path.headD ' ' = '/' then
            let combined := rstripSlashL bp.path ++ tp.path
            let combined := if combined.isEmpty then ['/'] else combined
            (urlunsplitL ⟨bp.scheme, bp.netloc, combined, tp.query, tp.fragment⟩).asString
          else
            let j := urljoin b target
            if !j.isEmpty then j else target
        else target
      | none => target

/-- The base-candidate list built inside `_prepare_link`: the primary
and fallback bases, each normalized, failures skipped. -/
def baseCandidates (primaryBase fallbackBase : Option String) : List String :=
  [primaryBase, fallbackBase].filterMap normalizeBaseHref

/-- The resolution loop of `_prepare_link`: resolve against each base
in turn, stop at the first absolute result; the final (non-absolute)
resolution result is kept when no base succeeds; `none` when there is
no base at all. -/
def resolveLoop (urljoin : String → String → String) (hv : String) :
    List String → Option String
  | [] => none
  | [b] => some (resolveLinkHref urljoin hv (some b))
  | b :: b2 :: bs =>
    let r := resolveLinkHref urljoin hv (some b)
    if isAbsoluteHref (some r) then some r
    else resolveLoop urljoin hv (b2 :: bs)

/-- `prepared['rel'] = prepared.get('rel') or 'related'` (a missing or
empty rel becomes `related`). -/
def relDefault (c : Link) : String :=
  match c.rel with
  | some s => if s.isEmpty then "related" else s
  | none => "related"

/-- `prepared.setdefault('type', 'application/json')`. -/
def typeDefault (c : Link) : String :=
  match c.type with
  | some s => s
  | none => "application/json"

/-- `_prepare_link(candidate, primary_base, fallback_base)`: `none` for
a missing or empty href; an absolute href is used unchanged; otherwise
the href is resolved against the candidate bases; a candidate whose
href cannot be made absolute is dropped with a warning (the boolean).
On success `rel` defaults to `'related'` and `type` to
`'application/json'`. -/
def prepareLink (urljoin : String → String → String) (candidate : Link)
    (primaryBase fallbackBase : Option String) : Option Link × Bool :=
  match candidate.href with
  | none => (none, false)
  | some hv =>
    if hv.isEmpty then (none, false)
    else
      match (if isAbsoluteHref (some hv) then some hv
             else resolveLoop urljoin hv (baseCandidates primaryBase fallbackBase)) with
      | none => (none, true)
      | some r =>
        if r.isEmpty || !isAbsoluteHref (some r) then (none, true)
        else
          (some { rel := some (relDefault candidate),
                  type := some (typeDefault candidate), href := some r }, false)

/-- Inner scan of `_get_link_base_href` for one rel name: the first
link with that rel whose href yields a derivable base. -/
def findBaseForRel (relName : String) : List Link → Option String
  | [] => none
  | l :: ls =>
    if l.rel = some relName then
      match deriveBaseHref l.href with
      | some b => some b
      | none => findBaseForRel relName ls
    else findBaseForRel relName ls

/-- `_get_link_base_href(links)`: a base derived from an existing
`self` link, else from an existing `collection` link. -/
def getLinkBaseHref (links : List Link) : Option String :=
  match findBaseForRel "self" links with
  | some b => some b
  | none => findBaseForRel "collection" links

/-- One iteration of the candidate loop of `_merge_links`: skip a
candidate that does not prepare or whose `(rel, href)` key is already
seen, otherwise append it and record its key. -/
def mergeStep (urljoin : String → String → String) (nb fb : Option String)
    (st : List Link × List (Option String × Option String)) (c : Link) :
    List Link × List (Option String × Option String) :=
  match prepareLink urljoin c nb fb with
  | (none, _) => st
  | (some p, _) =>
    if linkKey p ∈ st.2 then st
    else (st.1 ++ [p], st.2 ++ [linkKey p])

/-- `_merge_links(feature, candidates, base_href)`: ensure a `links`
list, collect existing `(rel, href)` keys, compute the normalized base
and the fallback base (from an existing `self`/`collection` link, else
the normalized base), then append each prepared candidate whose key is
new. -/
def mergeLinks (urljoin : String → String → String) (feature : Feature)
    (candidates : List Link) (baseHref : Option String) : Feature :=
  let links := feature.links.getD []
  let existing := links.map linkKey
  let nb := normalizeBaseHref baseHref
  let eb := getLinkBaseHref links
  let fb := match eb with
    | some b => some b
    | none => nb
  let r := candidates.foldl (mergeStep urljoin nb fb) ([], existing)
  { feature with links := some (links ++ r.1) }

/-! ## Link template rendering
(`_render_link_template`, `_format_template_value`) -/

/-- A parsed Python format string, as consumed by `str.format_map`:
literal chunks, named placeholders, and a placeholder with an invalid
format specification (raising a non-`KeyError` at formatting time;
this models the "any other error" branch of `_render_link_template`). -/
inductive Seg where
  | lit (s : String)
  | hole (name : String)
  | badSpec (name : String)

/-- A link template value as fed to `_format_template_value`: a format
string, a nested dict, a nested list, or any other value (passed
through unchanged). -/
inductive TValue where
  | str (segs : List Seg)
  | dict (entries : List (String × TValue))
  | list (items : List TValue)
  | atom (v : Value)

/-- Errors raised during template formatting: `KeyError` for a missing
placeholder, any other exception collapsed into `other`. -/
inductive FmtErr where
  | keyError (name : String)
  | other (msg : String)

/-- Lookup in the format context (feature id and stringified top-level
properties). -/
def lookupCtx : List (String × String) → String → Option String
  | [], _ => none
  | (k, v) :: rest, key => if k = key then some v else lookupCtx rest key

/-- `value.format_map(context)` on a parsed format string: substitute
placeholders left to right, raising `KeyError` at the first missing
name and a non-`KeyError` at the first invalid specification. -/
def formatSegs (ctx : List (String × String)) : List Seg → Except FmtErr String
  | [] => .ok ""
  | .lit s :: rest => (formatSegs ctx rest).map (s ++ ·)
  | .hole n :: rest =>
    match lookupCtx ctx n with
    | none => .error (.keyError n)
    | some v => (formatSegs ctx rest).map (v ++ ·)
  | .badSpec n :: _ => .error (.other n)

mutual

/-- `_format_template_value(value, context)`: strings are formatted,
dicts and lists are formatted recursively (first error propagates),
anything else is returned unchanged. -/
def formatValue (ctx : List (String × String)) : TValue → Except FmtErr Value
  | .str segs => (formatSegs ctx segs).map Value.str
  | .dict es => (formatEntries ctx es).map Value.dict
  | .list xs => (formatItems ctx xs).map Value.list
  | .atom v => .ok v

/-- Recursive formatting of dict entries, in insertion order. -/
def formatEntries (ctx : List (String × String)) :
    List (String × TValue) → Except FmtErr (List (String × Value))
  | [] => .ok []
  | (k, v) :: rest => do
    let v' ← formatValue ctx v
    let rest' ← formatEntries ctx rest
    pure ((k, v') :: rest')

/-- Recursive formatting of list items, in order. -/
def formatItems (ctx : List (String × String)) :
    List TValue → Except FmtErr (List Value)
  | [] => .ok []
  | v :: rest => do
    let v' ← formatValue ctx v
    let rest' ← formatItems ctx rest
    pure (v' :: rest')

end

/-- Whether one format-string segment is a placeholder absent from the
context. -/
def segMissing (ctx : List (String × String)) : Seg → Bool
  | .hole n => (lookupCtx ctx n).isNone
  | _ => false

mutual

/-- Whether a template value contains, at any nesting depth, a
placeholder absent from the context. -/
def hasMissingHole (ctx : List (String × String)) : TValue → Bool
  | .str segs => segs.any (segMissing ctx)
  | .dict es => hasMissingHoleEntries ctx es
  | .list xs => hasMissingHoleItems ctx xs
  | .atom _ => false

/-- `hasMissingHole` over dict entries. -/
def hasMissingHoleEntries (ctx : List (String × String)) :
    List (String × TValue) → Bool
  | [] => false
  | (_, v) :: rest => hasMissingHole ctx v || hasMissingHoleEntries ctx rest

/-- `hasMissingHole` over list items. -/
def hasMissingHoleItems (ctx : List (String × String)) :
    List TValue → Bool
  | [] => false
  | v :: rest => hasMissingHole ctx v || hasMissingHoleItems ctx rest

end

/-- Python `dict.setdefault(key, v)`. -/
def setDefaultKey (m : List (String × Value)) (key : String) (v : Value) :
    List (String × Value) :=
  if (lookupVal m key).isSome then m else m ++ [(key, v)]

/-- `_render_link_template(template, context)`: format every value of
the descriptor (any `KeyError` or other exception drops the whole
descriptor with a warning — the boolean), drop a rendered descriptor
without `href` (silently), then default `rel` and `type`. -/
def renderLinkTemplate (template : List (String × TValue))
    (ctx : List (String × String)) : Option (List (String × Value)) × Bool :=
  match formatEntries ctx template with
  | .error _ => (none, true)
  | .ok rendered =>
    if (lookupVal rendered "href").isNone then (none, false)
    else
      let rendered := setDefaultKey rendered "rel" (.str "related")
      let rendered := setDefaultKey rendered "type" (.str "application/json")
      (some rendered, false)

/-- Read a string-valued field from a rendered descriptor (the source
passes rendered dicts straight to `_merge_links`, which reads the
`rel`, `type`, `href` keys; the embedding restricts links to those
fields, read as strings). -/
def strField (m : List (String × Value)) (key : String) : Option String :=
  match lookupVal m key with
  | some (.str s) => some s
  | _ => none

/-- Conversion of a rendered descriptor into the restricted `Link`
model. -/
def toLink (m : List (String × Value)) : Link :=
  { rel := strField m "rel", type := strField m "type", href := strField m "href" }

/-! ## Feature assembly
(`_create_feature`, `_get_properties`, `_objectify_properties`,
`_add_provider_links`, `_get_target_crs`) -/

/-- Stringification used when a placeholder is substituted
(`str.format_map` formats the context value).  The textual form of
container and geometry values is abstracted (no claim depends on
it). -/
def showValue : Value → String
  | .str s => s
  | .int n => toString n
  | .vnull => "None"
  | .geom _ _ => "geometry"
  | .dict _ => "dict"
  | .list _ => "list"

/-- The part of pygeoapi `CrsTransformSpec` the provider reads for CRS
identification. -/
structure CrsTransformSpec where
  targetCrsUri : String

/-- Modelled external behavior of
`str(pygeoapi.util.get_crs_from_uri(uri))` (pyproj): the
latitude/longitude-ordered identifier URI of EPSG:4326 maps to the
string `EPSG:4326`; the longitude/latitude-ordered CRS84 URI of the
same CRS maps to `OGC:CRS84`; any other OGC CRS URI maps to the EPSG
form of its last path segment. -/
def pyprojCrsStr (uri : String) : String :=
  if uri = "http://www.opengis.net/def/crs/EPSG/0/4326" then "EPSG:4326"
  else if uri = "http://www.opengis.net/def/crs/OGC/1.3/CRS84" then "OGC:CRS84"
  else "EPSG:" ++ (uri.splitOn "/").getLastD ""

/-- `_get_target_crs(crs_transform_spec, storage_crs)`. -/
def getTargetCrs (spec : Option CrsTransformSpec) (storageCrs : String) : String :=
  pyprojCrsStr (match spec with
    | some s => s.targetCrsUri
    | none => storageCrs)

/-- `_get_properties(select_properties)`: the explicit selection list
when nonempty, else the configured field keys; minus the globally
excluded properties. -/
def getProperties (fieldKeys excluded selectProperties : List String) :
    List String :=
  let keys := if selectProperties.isEmpty then fieldKeys else selectProperties
  keys.filter (fun k => !excluded.contains k)

/-- One key of `_objectify_properties`: walk the dot-separated parts,
descending into (or creating) nested dicts, and set the final part. -/
def insertPath : List (String × Value) → List String → Value → List (String × Value)
  | m, [], _ => m
  | m, [last], v => setKey m last v
  | m, part :: rest, v =>
    let sub := match lookupVal m part with
      | some (.dict d) => d
      | _ => []
    setKey m part (.dict (insertPath sub rest v))

/-- `_objectify_properties(properties)`. -/
def objectifyProperties (properties : List (String × Value)) :
    List (String × Value) :=
  properties.foldl (fun result kv => insertPath result (kv.1.splitOn ".") kv.2) []

/-- `g.SwapXY()` on a point. -/
def swapXY (p : ℚ × ℚ) : ℚ × ℚ := (p.2, p.1)

/-- `geom.ExportToJson()` as called by `_create_feature`: no
`COORDINATE_PRECISION` option is passed, so the serialized coordinates
are the exact coordinates of the geometry (full precision, identical
for every target CRS). -/
def exportGeomJson (p : ℚ × ℚ) : ℚ × ℚ := p

/-- The provider configuration fields `_create_feature` reads. -/
structure ProviderConfig where
  geomField : String
  idField : String
  fieldKeys : List String
  excludedProperties : List String
  linkTemplates : List (List (String × TValue))

/-- `_add_provider_links(feature, feature_id, links_base)`: with
configured templates, build the format context from the feature id and
the top-level properties (properties win on key clashes, as
`dict.update` overwrites the id entry), render every template, and
merge the successfully rendered candidates. -/
def addProviderLinks (urljoin : String → String → String)
    (linkTemplates : List (List (String × TValue))) (feature : Feature)
    (featureId : Value) (linksBase : Option String) : Feature :=
  if linkTemplates.isEmpty then feature
  else
    let props := feature.properties.getD []
    let ctx := props.map (fun kv => (kv.1, showValue kv.2)) ++ [("id", showValue featureId)]
    let candidates := linkTemplates.filterMap
      (fun t => ((renderLinkTemplate t ctx).1).map toLink)
    if candidates.isEmpty then feature
    else mergeLinks urljoin feature candidates linksBase

/-- `_create_feature(item, target_crs, coord_trans, select_properties,
links_base)`.  The record `item` is `item.__dict__` after the
`_sa_instance_state` pop.  The geometry branch pops a truthy geometry
value, applies the optional coordinate transformation, swaps axes
exactly when the target CRS string equals `EPSG:4326`, and serializes
with `ExportToJson()` (no options); a falsy geometry yields a null
geometry.  Then the id is popped, and the property loop copies
matching record values into `feature['properties']` — a key that does
not exist at that point, so the first matching key raises
`KeyError('properties')`; the local `properties` dict stays empty and
is what `_objectify_properties` receives.  Finally provider links are
attached. -/
def createFeature (urljoin : String → String → String) (cfg : ProviderConfig)
    (targetCrs : String) (coordTrans : Option ((ℚ × ℚ) → (ℚ × ℚ)))
    (selectProperties : List String) (linksBase : Option String)
    (item : List (String × Value)) : Except PyErr Feature := do
  let (geometry, item) ←
    if pyTruthy (lookupVal item cfg.geomField) then do
      let p ← match lookupVal item cfg.geomField with
        | some (.geom x y) => pure ((x, y) : ℚ × ℚ)
        | _ => throw (PyErr.typeError "geometry decode")
      let item := removeKey item cfg.geomField
      let p := match coordTrans with
        | some t => t p
        | none => p
      let p := if targetCrs = "EPSG:4326" then swapXY p else p
      pure (some (exportGeomJson p), item)
    else
      pure (none, item)
  let featureId ← match lookupVal item cfg.idField with
    | some v => pure v
    | none => throw (PyErr.keyError cfg.idField)
  let item := removeKey item cfg.idField
  let feature : Feature :=
    { ftype := "Feature", geometry := geometry, id := featureId, properties := none }
  let propertiesLocal : List (String × Value) := []
  let keys := getProperties cfg.fieldKeys cfg.excludedProperties selectProperties
  let feature ← keys.foldlM (fun (f : Feature) key =>
    match lookupVal item key with
    | none => pure f
    | some v =>
      match f.properties with
      | none => throw (PyErr.keyError "properties")
      | some ps => pure { f with properties := some (setKey ps key v) }) feature
  let feature := { feature with properties := some (objectifyProperties propertiesLocal) }
  pure (addProviderLinks urljoin cfg.linkTemplates feature featureId linksBase)

/-! ## Shared material for the claim theorems -/

/-- The latitude/longitude-ordered well-known identifier URI of
EPSG:4326. -/
def epsg4326Uri : String := "http://www.opengis.net/def/crs/EPSG/0/4326"

/-- The longitude/latitude-ordered CRS84 identifier URI of the same
CRS. -/
def crs84Uri : String := "http://www.opengis.net/def/crs/OGC/1.3/CRS84"

/-- The `if coord_trans: geom.Transform(coord_trans)` step of
`_create_feature`. -/
def applyCoordTrans (ct : Option ((ℚ × ℚ) → (ℚ × ℚ))) (p : ℚ × ℚ) : ℚ × ℚ :=
  match ct with
  | some t => t p
  | none => p

/-- Minimal provider configuration used by the geometry theorems. -/
def pointCfg : ProviderConfig :=
  { geomField := "geom", idField := "id", fieldKeys := [],
    excludedProperties := [], linkTemplates := [] }

/-- Spec-side notion of a coordinate carrying a precision of `d`
decimal digits (a multiple of `10 ^ (-d)`); written from the claim
text, for comparison with the serialized output of the code. -/
def hasDecimalPrecision (d : Nat) (q : ℚ) : Prop := ∃ k : ℤ, q * 10 ^ d = (k : ℚ)

/-- Spec-side classification of the target CRS strings as geographic,
written from the claim text (the two geographic forms that occur in
the spec). -/
def isGeographicCrs (tc : String) : Bool := tc = "EPSG:4326" || tc = "OGC:CRS84"

/-- A root-relative href in the sense of the amended claim: `urlsplit`
sees no scheme and no authority, a path starting with `/` but not with
`//`, and reattaching path, query and fragment yields the href back
(so no authority-like `//` prefix and no dangling empty `?` or `#`
that resolution would drop). -/
def rootRelativeHref (href : String) : Bool :=
  let t := urlsplitL href.toList
  t.scheme.isEmpty && t.netloc.isEmpty && (t.path.headD ' ' = '/') &&
    !(decide (t.path.take 2 = ['/', '/'])) &&
    (urlunsplitL ⟨[], [], t.path, t.query, t.fragment⟩ = href.toList)

/-! ### Helper lemmas about `findIdentifierIndex` -/

theorem findIdentifierIndex_lt_length {ids : List String} {x : String} {i : Nat}
    (h : findIdentifierIndex ids x = some i) : i < ids.length := by
  induction ids generalizing i with
  | nil => simp [findIdentifierIndex] at h
  | cons a rest ih =>
    rw [findIdentifierIndex] at h
    split at h
    · cases h
      simp
    · rcases Option.map_eq_some'.mp h with ⟨j, hj, hji⟩
      subst hji
      have := ih hj
      simp only [List.length_cons]
      omega

theorem findIdentifierIndex_getS {ids : List String} {x : String} {i : Nat}
    (h : findIdentifierIndex ids x = some i) : getS ids i = x := by
  induction ids generalizing i with
  | nil => simp [findIdentifierIndex] at h
  | cons a rest ih =>
    rw [findIdentifierIndex] at h
    split at h
    · rename_i heq
      cases h
      exact heq
    · rcases Option.map_eq_some'.mp h with ⟨j, hj, hji⟩
      subst hji
      exact ih hj

theorem findIdentifierIndex_isSome_of_mem {ids : List String} {x : String}
    (h : x ∈ ids) : (findIdentifierIndex ids x).isSome := by
  induction ids with
  | nil => simp at h
  | cons a rest ih =>
    rw [findIdentifierIndex]
    split
    · rfl
    · next hax =>
      have hx : x ∈ rest := by
        rcases List.mem_cons.mp h with rfl | hx
        · exact absurd rfl hax
        · exact hx
      simpa using ih hx

theorem getS_mem {l : List String} {j : Nat} (h : j < l.length) :
    getS l j ∈ l := by
  induction l generalizing j with
  | nil => simp at h
  | cons a rest ih =>
    cases j with
    | zero => exact List.mem_cons_self a rest
    | succ j =>
      have : j < rest.length := by simpa using h
      exact List.mem_cons_of_mem a (ih this)

/-- On a duplicate-free list, looking up the element at position `j`
finds exactly position `j`. -/
theorem findIdentifierIndex_getS_of_nodup {ids : List String}
    (hnd : ids.Nodup) {j : Nat} (hj : j < ids.length) :
    findIdentifierIndex ids (getS ids j) = some j := by
  induction ids generalizing j with
  | nil => simp at hj
  | cons a rest ih =>
    rcases List.nodup_cons.mp hnd with ⟨hna, hndr⟩
    cases j with
    | zero => simp [findIdentifierIndex, getS]
    | succ j =>
      have hjr : j < rest.length := by simpa using hj
      have hmem : getS rest j ∈ rest := getS_mem hjr
      have hne : a ≠ getS rest j := fun h => hna (h ▸ hmem)
      show findIdentifierIndex (a :: rest) (getS rest j) = some (j + 1)
      rw [findIdentifierIndex, if_neg hne, ih hndr hjr]
      rfl


/-- Geometry of a point record assembled by `_create_feature`: the
optional transform is applied, the axes are swapped exactly for the
target string `EPSG:4326`, and serialization is exact. -/
theorem createFeature_point_geometry (uj : String → String → String)
    (x y : ℚ) (ct : Option ((ℚ × ℚ) → (ℚ × ℚ))) (tc : String) :
    (createFeature uj pointCfg tc ct [] none
        [("geom", Value.geom x y), ("id", Value.int 1)]).map Feature.geometry =
      Except.ok (some (if tc = "EPSG:4326" then swapXY (applyCoordTrans ct (x, y))
        else applyCoordTrans ct (x, y))) := by
  by_cases h : tc = "EPSG:4326" <;> cases ct <;>
    simp [createFeature, pointCfg, applyCoordTrans, h, lookupVal, pyTruthy, removeKey,
      getProperties, addProviderLinks, objectifyProperties, swapXY, exportGeomJson] <;>
    rfl

/-! ## Claim C1 -/

/-- C1: the claim states that every field with a built mapping table is
replaced by the first label whose code equals the stringified raw value
(raw `3` with entry `(3, Active)` becomes `Active`).  The live code
never applies any field mapping during assembly: the
`_add_mapped_values` call and the mapping-table construction are
commented out, and the assembly of a record carrying a mapped field
raises `KeyError` on the missing `properties` key, producing no feature
at all — in particular none with a substituted label. -/
theorem C1_mapping_never_applied :
    createFeature (fun _ t => t)
      { geomField := "geom", idField := "id", fieldKeys := ["status"],
        excludedProperties := [], linkTemplates := [] }
      "OGC:CRS84" none [] none
      [("id", Value.int 1), ("status", Value.int 3)] =
    Except.error (PyErr.keyError "properties") := rfl

/-! ## Claim C2 -/

/-- C2: the claim states that the assembled properties contain exactly
the record values for the selected keys and that assembly does not
raise.  In the code, the property loop writes into
`feature['properties']` before that key exists, so assembling any
record with at least one matching attribute raises
`KeyError('properties')` (and the local `properties` dict that
`_objectify_properties` receives is never populated). -/
theorem C2_property_assembly_raises :
    createFeature (fun _ t => t)
      { geomField := "geom", idField := "id", fieldKeys := ["name"],
        excludedProperties := [], linkTemplates := [] }
      "OGC:CRS84" none [] none
      [("id", Value.int 1), ("name", Value.str "A")] =
    Except.error (PyErr.keyError "properties") := rfl

/-! ## Claim C3 -/

/-- C3: for every non-null input point geometry, the axis swap is
applied exactly for the target CRS string obtained from the
latitude/longitude-ordered EPSG:4326 identifier URI, and never for the
CRS84 form of the same CRS; in particular the point (1, 2) with no
transform directive serializes as (2, 1) under target EPSG:4326 and as
(1, 2) under target CRS84. -/
theorem C3_axis_swap_exactly_for_epsg4326 :
    (getTargetCrs (some ⟨epsg4326Uri⟩) crs84Uri = "EPSG:4326" ∧
      getTargetCrs (some ⟨crs84Uri⟩) crs84Uri = "OGC:CRS84") ∧
    (∀ (x y : ℚ) (ct : Option ((ℚ × ℚ) → (ℚ × ℚ))),
      (createFeature (fun _ t => t) pointCfg
          (getTargetCrs (some ⟨epsg4326Uri⟩) crs84Uri) ct [] none
          [("geom", Value.geom x y), ("id", Value.int 1)]).map Feature.geometry =
        Except.ok (some (swapXY (applyCoordTrans ct (x, y))))) ∧
    (∀ (x y : ℚ) (ct : Option ((ℚ × ℚ) → (ℚ × ℚ))),
      (createFeature (fun _ t => t) pointCfg
          (getTargetCrs (some ⟨crs84Uri⟩) crs84Uri) ct [] none
          [("geom", Value.geom x y), ("id", Value.int 1)]).map Feature.geometry =
        Except.ok (some (applyCoordTrans ct (x, y)))) ∧
    ((createFeature (fun _ t => t) pointCfg
        (getTargetCrs (some ⟨epsg4326Uri⟩) crs84Uri) none [] none
        [("geom", Value.geom 1 2), ("id", Value.int 1)]).map Feature.geometry =
      Except.ok (some ((2 : ℚ), (1 : ℚ))) ∧
     (createFeature (fun _ t => t) pointCfg
        (getTargetCrs (some ⟨crs84Uri⟩) crs84Uri) none [] none
        [("geom", Value.geom 1 2), ("id", Value.int 1)]).map Feature.geometry =
      Except.ok (some ((1 : ℚ), (2 : ℚ)))) := by
  refine ⟨⟨rfl, rfl⟩, ?_, ?_, rfl, rfl⟩
  · intro x y ct
    rw [createFeature_point_geometry]
    rfl
  · intro x y ct
    rw [createFeature_point_geometry]
    rfl

/-! ## Claim C5 -/

/-- C5 counterexample: the claim states serialized coordinates carry a
precision of 6 decimal digits for a geographic target CRS.  For the
geographic target CRS84 and the point (0.1234567, 0), the code
serializes the x coordinate with all seven decimals (ExportToJson is
called without precision options), so it does not carry 6-decimal
precision. -/
theorem C5_counterexample_no_six_decimal_rounding :
    isGeographicCrs (getTargetCrs (some ⟨crs84Uri⟩) crs84Uri) = true ∧
    (createFeature (fun _ t => t) pointCfg
        (getTargetCrs (some ⟨crs84Uri⟩) crs84Uri) none [] none
        [("geom", Value.geom (1234567 / 10000000 : ℚ) 0), ("id", Value.int 1)]).map
        Feature.geometry =
      Except.ok (some ((1234567 / 10000000 : ℚ), (0 : ℚ))) ∧
    ¬ hasDecimalPrecision 6 (1234567 / 10000000 : ℚ) := by
  refine ⟨rfl, ?_, ?_⟩
  · rw [createFeature_point_geometry]
    rfl
  · rintro ⟨k, hk⟩
    have h : (10 : ℚ) * ((1234567 / 10000000 : ℚ) * 10 ^ 6) = 1234567 := by norm_num
    rw [hk] at h
    have h' : (10 : ℤ) * k = 1234567 := by exact_mod_cast h
    omega

/-- C5 amended: serialization applies no CRS-dependent precision at
all: the serialized coordinates are exactly the transformed
coordinates, so any two targets other than the EPSG:4326 string (for
example one geographic and one projected CRS) produce identical
serialized geometry. -/
theorem C5_amended_no_crs_dependent_precision (x y : ℚ)
    (ct : Option ((ℚ × ℚ) → (ℚ × ℚ))) (tc₁ tc₂ : String)
    (h₁ : tc₁ ≠ "EPSG:4326") (h₂ : tc₂ ≠ "EPSG:4326") :
    (createFeature (fun _ t => t) pointCfg tc₁ ct [] none
        [("geom", Value.geom x y), ("id", Value.int 1)]).map Feature.geometry =
      Except.ok (some (applyCoordTrans ct (x, y))) ∧
    (createFeature (fun _ t => t) pointCfg tc₁ ct [] none
        [("geom", Value.geom x y), ("id", Value.int 1)]).map Feature.geometry =
      (createFeature (fun _ t => t) pointCfg tc₂ ct [] none
        [("geom", Value.geom x y), ("id", Value.int 1)]).map Feature.geometry := by
  rw [createFeature_point_geometry, createFeature_point_geometry, if_neg h₁, if_neg h₂]
  exact ⟨rfl, rfl⟩

/-- Witness for the amended C5 theorem at the geographic target CRS84
and the projected target EPSG:25833. -/
theorem C5_amended_witness :
    (createFeature (fun _ t => t) pointCfg "OGC:CRS84" none [] none
        [("geom", Value.geom 3 4), ("id", Value.int 1)]).map Feature.geometry =
      Except.ok (some (applyCoordTrans none (3, 4))) ∧
    (createFeature (fun _ t => t) pointCfg "OGC:CRS84" none [] none
        [("geom", Value.geom 3 4), ("id", Value.int 1)]).map Feature.geometry =
      (createFeature (fun _ t => t) pointCfg "EPSG:25833" none [] none
        [("geom", Value.geom 3 4), ("id", Value.int 1)]).map Feature.geometry :=
  C5_amended_no_crs_dependent_precision 3 4 none "OGC:CRS84" "EPSG:25833"
    (by decide) (by decide)

/-! ## Claim C4 -/

/-- On a duplicate-free sequence, `next` of the `prev` of the element
at a valid index returns that element. -/
theorem nextId_prevAt {ids : List String} (hnd : ids.Nodup) {i : Nat}
    (hi : i < ids.length) :
    nextId ids (prevAt ids i) = some (getS ids i) := by
  rw [prevAt]
  by_cases h1 : ids.length = 1
  · have hi0 : i = 0 := by omega
    subst hi0
    rw [if_pos h1, nextId, findIdentifierIndex_getS_of_nodup hnd (by omega)]
    simp [nextAt, h1]
  · rw [if_neg h1]
    by_cases h0 : i = 0
    · subst h0
      rw [if_pos rfl, nextId, findIdentifierIndex_getS_of_nodup hnd (by omega)]
      have h2 : (ids.length - 1) + 1 = ids.length := by omega
      simp [nextAt, h1, h2]
    · rw [if_neg h0, nextId, findIdentifierIndex_getS_of_nodup hnd (by omega)]
      have h2 : ¬ ((i - 1) + 1 = ids.length) := by omega
      have h3 : (i - 1) + 1 = i := by omega
      simp [nextAt, h1, h2, h3]
      exact fun h4 => absurd h4 (by omega)

/-- On a duplicate-free sequence, `prev` of the `next` of the element
at a valid index returns that element. -/
theorem prevId_nextAt {ids : List String} (hnd : ids.Nodup) {i : Nat}
    (hi : i < ids.length) :
    prevId ids (nextAt ids i) = some (getS ids i) := by
  rw [nextAt]
  by_cases h1 : ids.length = 1
  · have hi0 : i = 0 := by omega
    subst hi0
    rw [if_pos h1, prevId, findIdentifierIndex_getS_of_nodup hnd (by omega)]
    simp [prevAt, h1]
  · rw [if_neg h1]
    by_cases hl : i + 1 = ids.length
    · rw [if_pos hl, prevId, findIdentifierIndex_getS_of_nodup hnd (by omega)]
      have h2 : ids.length - 1 = i := by omega
      simp [prevAt, h1, h2]
    · rw [if_neg hl, prevId, findIdentifierIndex_getS_of_nodup hnd (by omega)]
      have h2 : ¬ (i + 1 = 0) := by omega
      have h3 : i + 1 - 1 = i := by omega
      simp [prevAt, h1, h2, h3]

/-- C4: circular prev/next navigation over the cached identifier
sequence: for every identifier of a duplicate-free sequence (the
sequence enumerates a primary key column), next(prev(id)) = id and
prev(next(id)) = id; prev of the first element is the last element and
next of the last element is the first; and on a sequence of length 1
both prev and next map the identifier to itself. -/
theorem C4_prev_next_circular :
    (∀ (ids : List String) (identifier : String), ids.Nodup → identifier ∈ ids →
      (∀ p, prevId ids identifier = some p → nextId ids p = some identifier) ∧
      (∀ q, nextId ids identifier = some q → prevId ids q = some identifier)) ∧
    (∀ ids : List String, ids.Nodup → ids ≠ [] →
      prevId ids (getS ids 0) = some (getS ids (ids.length - 1)) ∧
      nextId ids (getS ids (ids.length - 1)) = some (getS ids 0)) ∧
    (∀ identifier : String,
      prevId [identifier] identifier = some identifier ∧
      nextId [identifier] identifier = some identifier) := by
  refine ⟨?_, ?_, ?_⟩
  · intro ids identifier hnd hmem
    obtain ⟨i, hfi⟩ := Option.isSome_iff_exists.mp (findIdentifierIndex_isSome_of_mem hmem)
    have hi := findIdentifierIndex_lt_length hfi
    have hgi := findIdentifierIndex_getS hfi
    constructor
    · intro p hp
      rw [prevId, hfi, Option.map_some'] at hp
      cases hp
      rw [nextId_prevAt hnd hi, hgi]
    · intro q hq
      rw [nextId, hfi, Option.map_some'] at hq
      cases hq
      rw [prevId_nextAt hnd hi, hgi]
  · intro ids hnd hne
    have hlen : 0 < ids.length := List.length_pos.mpr hne
    constructor
    · rw [prevId, findIdentifierIndex_getS_of_nodup hnd hlen, Option.map_some']
      by_cases h1 : ids.length = 1
      · simp [prevAt, h1]
      · simp [prevAt, h1]
    · rw [nextId, findIdentifierIndex_getS_of_nodup hnd (by omega), Option.map_some']
      by_cases h1 : ids.length = 1
      · simp [nextAt, h1]
      · have h2 : (ids.length - 1) + 1 = ids.length := by omega
        simp [nextAt, h1, h2]
  · intro identifier
    constructor <;> simp [prevId, nextId, findIdentifierIndex, prevAt, nextAt, getS]

/-- Witness for C4 at the concrete sequence `["1", "2", "3"]`. -/
theorem C4_prev_next_circular_witness :
    prevId ["1", "2", "3"] (getS ["1", "2", "3"] 0) =
      some (getS ["1", "2", "3"] (["1", "2", "3"].length - 1)) ∧
    nextId ["1", "2", "3"] (getS ["1", "2", "3"] (["1", "2", "3"].length - 1)) =
      some (getS ["1", "2", "3"] 0) :=
  C4_prev_next_circular.2.1 ["1", "2", "3"] (by decide) (by decide)

/-! ## Claim C6 -/

/-- C6: on a prev/next lookup whose stringified identifier is absent
from the cached sequence, the cache entry is invalidated and exactly
one rebuild is attempted (the entry afterwards is the fresh query
result); if the identifier is still absent the operation returns
normally — the embedding is a total function — with the feature
completely unchanged (so no prev/next fields are added and every other
field keeps its value) and the warning logged. -/
theorem C6_nav_miss_nonfatal (identifier : String) (feature : Feature)
    (cache : Option (List String)) (db : List String)
    (h₁ : findIdentifierIndex (cache.getD db) identifier = none)
    (h₂ : findIdentifierIndex db identifier = none) :
    setPrevAndNext identifier feature cache db =
      { feature := feature, cacheAfter := some db, rebuilds := 1, warned := true } := by
  cases cache <;> simp_all [setPrevAndNext, getTableIds]

/-- Witness for C6: identifier `9` missing from both the cached and the
rebuilt sequence. -/
theorem C6_nav_miss_nonfatal_witness :
    setPrevAndNext "9" { } (some ["1", "2"]) ["1", "2"] =
      { feature := { }, cacheAfter := some ["1", "2"], rebuilds := 1, warned := true } :=
  C6_nav_miss_nonfatal "9" { } (some ["1", "2"]) ["1", "2"] (by rfl) (by rfl)

/-! ## Claim C7 -/

/-- A format string containing a placeholder absent from the context
(or an invalid specification before it) always formats to an error. -/
theorem formatSegs_error_of_missing {ctx : List (String × String)} :
    ∀ {segs : List Seg}, segs.any (segMissing ctx) = true →
      ∃ e, formatSegs ctx segs = .error e := by
  intro segs h
  induction segs with
  | nil => simp at h
  | cons s rest ih =>
    cases s with
    | lit t =>
      have hr : rest.any (segMissing ctx) = true := by
        simpa [segMissing] using h
      rcases ih hr with ⟨e, he⟩
      exact ⟨e, by rw [formatSegs, he]; rfl⟩
    | hole n =>
      cases hn : lookupCtx ctx n with
      | none => exact ⟨.keyError n, by simp [formatSegs, hn]⟩
      | some v =>
        have hr : rest.any (segMissing ctx) = true := by
          simpa [segMissing, hn] using h
        rcases ih hr with ⟨e, he⟩
        exact ⟨e, by simp only [formatSegs, hn, he]; rfl⟩
    | badSpec n => exact ⟨.other n, by rw [formatSegs]⟩

mutual

/-- A template value containing, at any depth, a placeholder absent
from the context always formats to an error. -/
theorem formatValue_error_of_missing (ctx : List (String × String)) :
    ∀ v : TValue, hasMissingHole ctx v = true → ∃ e, formatValue ctx v = .error e
  | .str segs, h => by
    rw [hasMissingHole] at h
    rcases formatSegs_error_of_missing h with ⟨e, he⟩
    exact ⟨e, by rw [formatValue, he]; rfl⟩
  | .dict es, h => by
    rw [hasMissingHole] at h
    rcases formatEntries_error_of_missing ctx es h with ⟨e, he⟩
    exact ⟨e, by rw [formatValue, he]; rfl⟩
  | .list xs, h => by
    rw [hasMissingHole] at h
    rcases formatItems_error_of_missing ctx xs h with ⟨e, he⟩
    exact ⟨e, by rw [formatValue, he]; rfl⟩
  | .atom v, h => by
    rw [hasMissingHole] at h
    exact absurd h (by simp)

/-- `formatValue_error_of_missing` over dict entries. -/
theorem formatEntries_error_of_missing (ctx : List (String × String)) :
    ∀ es : List (String × TValue), hasMissingHoleEntries ctx es = true →
      ∃ e, formatEntries ctx es = .error e
  | [], h => by
    rw [hasMissingHoleEntries] at h
    exact absurd h (by simp)
  | (k, v) :: rest, h => by
    rw [hasMissingHoleEntries] at h
    cases hfv : formatValue ctx v with
    | error e => exact ⟨e, by rw [formatEntries, hfv]; rfl⟩
    | ok v' =>
      have hr : hasMissingHoleEntries ctx rest = true := by
        cases hv : hasMissingHole ctx v with
        | true =>
          rcases formatValue_error_of_missing ctx v hv with ⟨e, he⟩
          rw [he] at hfv
          exact absurd hfv (by simp)
        | false =>
          rw [hv] at h
          simpa using h
      rcases formatEntries_error_of_missing ctx rest hr with ⟨e, he⟩
      exact ⟨e, by rw [formatEntries, hfv, he]; rfl⟩

/-- `formatValue_error_of_missing` over list items. -/
theorem formatItems_error_of_missing (ctx : List (String × String)) :
    ∀ xs : List TValue, hasMissingHoleItems ctx xs = true →
      ∃ e, formatItems ctx xs = .error e
  | [], h => by
    rw [hasMissingHoleItems] at h
    exact absurd h (by simp)
  | v :: rest, h => by
    rw [hasMissingHoleItems] at h
    cases hfv : formatValue ctx v with
    | error e => exact ⟨e, by rw [formatItems, hfv]; rfl⟩
    | ok v' =>
      have hr : hasMissingHoleItems ctx rest = true := by
        cases hv : hasMissingHole ctx v with
        | true =>
          rcases formatValue_error_of_missing ctx v hv with ⟨e, he⟩
          rw [he] at hfv
          exact absurd hfv (by simp)
        | false =>
          rw [hv] at h
          simpa using h
      rcases formatItems_error_of_missing ctx rest hr with ⟨e, he⟩
      exact ⟨e, by rw [formatItems, hfv, he]; rfl⟩

end

/-- If any entry of a descriptor fails to format (for any error), the
whole descriptor formats to an error. -/
theorem formatEntries_error_of_entry (ctx : List (String × String)) :
    ∀ es : List (String × TValue),
      (∃ kv ∈ es, ∃ e, formatValue ctx kv.2 = .error e) →
      ∃ e, formatEntries ctx es = .error e := by
  intro es h
  induction es with
  | nil => simp at h
  | cons kv rest ih =>
    obtain ⟨k, v⟩ := kv
    cases hfv : formatValue ctx v with
    | error e => exact ⟨e, by rw [formatEntries, hfv]; rfl⟩
    | ok v' =>
      have hr : ∃ kv ∈ rest, ∃ e, formatValue ctx kv.2 = .error e := by
        rcases h with ⟨kv', hmem, e, he⟩
        rcases List.mem_cons.mp hmem with rfl | hmem'
        · rw [hfv] at he
          exact absurd he (by simp)
        · exact ⟨kv', hmem', e, he⟩
      rcases ih hr with ⟨e, he⟩
      exact ⟨e, by rw [formatEntries, hfv, he]; rfl⟩

/-- C7: for every link template descriptor and rendering context, if
any value of the descriptor contains — at any nesting depth — a
placeholder absent from the context, or any value fails to format with
any other error, then rendering yields no link at all and the warning
is recorded; no partially substituted descriptor is ever produced. -/
theorem C7_unresolved_placeholder_drops_descriptor
    (template : List (String × TValue)) (ctx : List (String × String))
    (h : ∃ kv ∈ template, hasMissingHole ctx kv.2 = true ∨
      ∃ e, formatValue ctx kv.2 = .error e) :
    renderLinkTemplate template ctx = (none, true) := by
  have herr : ∃ kv ∈ template, ∃ e, formatValue ctx kv.2 = .error e := by
    rcases h with ⟨kv, hmem, hcase⟩
    rcases hcase with hmiss | herr
    · exact ⟨kv, hmem, formatValue_error_of_missing ctx kv.2 hmiss⟩
    · exact ⟨kv, hmem, herr⟩
  rcases formatEntries_error_of_entry ctx template herr with ⟨e, he⟩
  simp [renderLinkTemplate, he]

/-- Witness for C7: a template whose `href` references
`missing_field`, absent from the context, renders to no link with a
warning. -/
theorem C7_unresolved_placeholder_witness :
    renderLinkTemplate [("href", TValue.str [Seg.hole "missing_field"])]
      [("id", "42")] = (none, true) :=
  C7_unresolved_placeholder_drops_descriptor _ _
    ⟨("href", TValue.str [Seg.hole "missing_field"]), by simp,
      Or.inl (by simp [hasMissingHole, segMissing, lookupCtx])⟩

/-! ## Claim C9 -/

/-- A successfully prepared link carries the candidate's defaulted rel
and an absolute href. -/
theorem prepareLink_some_spec {uj : String → String → String} {c : Link}
    {nb fb : Option String} {p : Link}
    (h : (prepareLink uj c nb fb).1 = some p) :
    p.rel = some (relDefault c) ∧ isAbsoluteHref p.href = true := by
  rw [prepareLink] at h
  split at h
  · exact absurd h (by simp)
  · rename_i hv hveq
    split at h
    · exact absurd h (by simp)
    · split at h
      · exact absurd h (by simp)
      · rename_i r hr
        split at h
        · exact absurd h (by simp)
        · rename_i hcond
          simp only [Option.some.injEq] at h
          subst h
          refine ⟨rfl, ?_⟩
          simp only [Bool.or_eq_true, Bool.not_eq_true', not_or] at hcond
          simpa using hcond.2

/-- `mergeStep` written in terms of the prepared link only (the logged
warning does not influence the state). -/
theorem mergeStep_eq (uj : String → String → String) (nb fb : Option String)
    (st : List Link × List (Option String × Option String)) (c : Link) :
    mergeStep uj nb fb st c =
      match (prepareLink uj c nb fb).1 with
      | none => st
      | some p =>
        if linkKey p ∈ st.2 then st else (st.1 ++ [p], st.2 ++ [linkKey p]) := by
  rcases hpl : prepareLink uj c nb fb with ⟨po, w⟩
  cases po <;> simp [mergeStep, hpl]

/-- Specification of the candidate loop of `_merge_links`: the loop
appends a block of freshly keyed prepared links — their keys are
pairwise distinct and disjoint from the keys already seen — and after
the loop every candidate that prepares successfully has its key among
the seen keys. -/
theorem mergeFold_spec (uj : String → String → String) (nb fb : Option String) :
    ∀ (cands : List Link) (acc : List Link)
      (seen : List (Option String × Option String)),
      ∃ app : List Link,
        (cands.foldl (mergeStep uj nb fb) (acc, seen)).1 = acc ++ app ∧
        (cands.foldl (mergeStep uj nb fb) (acc, seen)).2 = seen ++ app.map linkKey ∧
        (∀ k ∈ app.map linkKey, k ∉ seen) ∧
        (app.map linkKey).Nodup ∧
        (∀ c ∈ cands, ∀ p, (prepareLink uj c nb fb).1 = some p →
          linkKey p ∈ seen ++ app.map linkKey) ∧
        (∀ p ∈ app, ∃ c ∈ cands, (prepareLink uj c nb fb).1 = some p) := by
  intro cands
  induction cands with
  | nil =>
    intro acc seen
    exact ⟨[], by simp, by simp, by simp, by simp, by simp, by simp⟩
  | cons c cs ih =>
    intro acc seen
    rw [List.foldl_cons, mergeStep_eq]
    cases hp : (prepareLink uj c nb fb).1 with
    | none =>
      dsimp only
      rcases ih acc seen with ⟨app, h1, h2, h3, h4, h5, h6⟩
      refine ⟨app, h1, h2, h3, h4, ?_, ?_⟩
      · intro c' hc' p hpc'
        rcases List.mem_cons.mp hc' with rfl | hmem
        · rw [hp] at hpc'
          exact absurd hpc' (by simp)
        · exact h5 c' hmem p hpc'
      · intro p hpapp
        rcases h6 p hpapp with ⟨c', hc', hpc'⟩
        exact ⟨c', List.mem_cons_of_mem _ hc', hpc'⟩
    | some p =>
      dsimp only
      by_cases hseen : linkKey p ∈ seen
      · rw [if_pos hseen]
        rcases ih acc seen with ⟨app, h1, h2, h3, h4, h5, h6⟩
        refine ⟨app, h1, h2, h3, h4, ?_, ?_⟩
        · intro c' hc' q hq
          rcases List.mem_cons.mp hc' with rfl | hmem
          · rw [hp] at hq
            injection hq with hq
            subst hq
            exact List.mem_append_left _ hseen
          · exact h5 c' hmem q hq
        · intro q hqapp
          rcases h6 q hqapp with ⟨c', hc', hpc'⟩
          exact ⟨c', List.mem_cons_of_mem _ hc', hpc'⟩
      · rw [if_neg hseen]
        rcases ih (acc ++ [p]) (seen ++ [linkKey p]) with ⟨app, h1, h2, h3, h4, h5, h6⟩
        refine ⟨p :: app, ?_, ?_, ?_, ?_, ?_, ?_⟩
        · rw [h1, List.append_assoc]
          rfl
        · rw [h2, List.append_assoc]
          rfl
        · intro k hk
          rcases List.mem_cons.mp hk with rfl | hk'
          · exact hseen
          · intro hks
            exact (h3 k hk') (List.mem_append_left _ hks)
        · refine List.nodup_cons.mpr ⟨?_, h4⟩
          intro hmem
          exact (h3 _ hmem) (List.mem_append_right _ (List.mem_singleton.mpr rfl))
        · intro c' hc' q hq
          rcases List.mem_cons.mp hc' with rfl | hmem
          · rw [hp] at hq
            injection hq with hq
            subst hq
            refine List.mem_append_right _ ?_
            exact List.mem_cons_self _ _
          · have := h5 c' hmem q hq
            rw [List.append_assoc] at this
            simpa using this
        · intro q hqapp
          rcases List.mem_cons.mp hqapp with rfl | hq'
          · exact ⟨c, List.mem_cons_self _ _, hp⟩
          · rcases h6 q hq' with ⟨c', hc', hpc'⟩
            exact ⟨c', List.mem_cons_of_mem _ hc', hpc'⟩

/-- The candidate loop appends nothing when every successfully
prepared candidate is already keyed among the seen keys. -/
theorem mergeFold_skip (uj : String → String → String) (nb fb : Option String) :
    ∀ (cands : List Link) (acc : List Link)
      (seen : List (Option String × Option String)),
      (∀ c ∈ cands, ∀ p, (prepareLink uj c nb fb).1 = some p → linkKey p ∈ seen) →
      cands.foldl (mergeStep uj nb fb) (acc, seen) = (acc, seen) := by
  intro cands
  induction cands with
  | nil =>
    intro acc seen _
    rfl
  | cons c cs ih =>
    intro acc seen h
    rw [List.foldl_cons, mergeStep_eq]
    cases hp : (prepareLink uj c nb fb).1 with
    | none =>
      exact ih acc seen (fun c' hc' => h c' (List.mem_cons_of_mem _ hc'))
    | some p =>
      have hmem := h c (List.mem_cons_self _ _) p hp
      dsimp only
      rw [if_pos hmem]
      exact ih acc seen (fun c' hc' => h c' (List.mem_cons_of_mem _ hc'))

/-- `findBaseForRel` over an append scans the first block first. -/
theorem findBaseForRel_append (relName : String) (xs ys : List Link) :
    findBaseForRel relName (xs ++ ys) =
      match findBaseForRel relName xs with
      | some b => some b
      | none => findBaseForRel relName ys := by
  induction xs with
  | nil => simp [findBaseForRel]
  | cons l ls ih =>
    by_cases hl : l.rel = some relName
    · cases hd : deriveBaseHref l.href with
      | some b => simp [findBaseForRel, hl, hd]
      | none => simp [findBaseForRel, hl, hd, ih]
    · simp [findBaseForRel, hl, ih]

/-- `findBaseForRel` finds nothing among links without that rel. -/
theorem findBaseForRel_eq_none (relName : String) (ys : List Link)
    (h : ∀ l ∈ ys, l.rel ≠ some relName) :
    findBaseForRel relName ys = none := by
  induction ys with
  | nil => rfl
  | cons l ls ih =>
    rw [findBaseForRel, if_neg (h l (List.mem_cons_self _ _))]
    exact ih (fun l' hl' => h l' (List.mem_cons_of_mem _ hl'))

/-- The fallback base derived from existing links ignores appended
links that carry neither rel `self` nor rel `collection`. -/
theorem getLinkBaseHref_append (xs ys : List Link)
    (h : ∀ l ∈ ys, l.rel ≠ some "self" ∧ l.rel ≠ some "collection") :
    getLinkBaseHref (xs ++ ys) = getLinkBaseHref xs := by
  have h1 : findBaseForRel "self" ys = none :=
    findBaseForRel_eq_none _ _ (fun l hl => (h l hl).1)
  have h2 : findBaseForRel "collection" ys = none :=
    findBaseForRel_eq_none _ _ (fun l hl => (h l hl).2)
  rw [getLinkBaseHref, getLinkBaseHref, findBaseForRel_append, findBaseForRel_append,
    h1, h2]
  cases findBaseForRel "self" xs <;> cases findBaseForRel "collection" xs <;> simp

/-- C9 (amended): merging appends only candidates whose `(rel, href)`
key is absent from the existing links and from the candidates merged
earlier in the same call (so one call never produces two entries with
the same key), and merging the same candidates and base twice in
succession is idempotent provided no candidate carries rel `self` or
`collection` — for such candidates the first merge cannot change the
fallback base derived from the feature's own links. -/
theorem C9_merge_dedup_and_idempotent :
    (∀ (uj : String → String → String) (F : Feature) (cands : List Link)
      (b : Option String),
      ∃ app : List Link,
        (mergeLinks uj F cands b).links = some (F.links.getD [] ++ app) ∧
        (app.map linkKey).Nodup ∧
        (∀ k ∈ app.map linkKey, k ∉ (F.links.getD []).map linkKey)) ∧
    (∀ (uj : String → String → String) (F : Feature) (cands : List Link)
      (b : Option String),
      (∀ c ∈ cands, relDefault c ≠ "self" ∧ relDefault c ≠ "collection") →
      mergeLinks uj (mergeLinks uj F cands b) cands b = mergeLinks uj F cands b) := by
  constructor
  · intro uj F cands b
    rcases mergeFold_spec uj (normalizeBaseHref b)
        (match getLinkBaseHref (F.links.getD []) with
          | some bb => some bb
          | none => normalizeBaseHref b)
        cands [] ((F.links.getD []).map linkKey) with ⟨app, h1, h2, h3, h4, h5, h6⟩
    refine ⟨app, ?_, h4, h3⟩
    rw [mergeLinks]
    simp only [h1]
    rfl
  · intro uj F cands b hrels
    set L := F.links.getD [] with hL
    set nb := normalizeBaseHref b with hnb
    set fb := (match getLinkBaseHref L with
      | some bb => some bb
      | none => nb) with hfb
    rcases mergeFold_spec uj nb fb cands [] (L.map linkKey) with
      ⟨app, h1, h2, h3, h4, h5, h6⟩
    have hmerge1 : mergeLinks uj F cands b = { F with links := some (L ++ app) } := by
      rw [mergeLinks]
      simp only [← hL, ← hnb, ← hfb, h1]
      rfl
    have happrel : ∀ l ∈ app, l.rel ≠ some "self" ∧ l.rel ≠ some "collection" := by
      intro l hl
      rcases h6 l hl with ⟨c, hc, hpc⟩
      have hspec := (prepareLink_some_spec hpc).1
      rcases hrels c hc with ⟨hs, hcoll⟩
      constructor
      · rw [hspec]
        intro hcontra
        exact hs (by simpa using hcontra)
      · rw [hspec]
        intro hcontra
        exact hcoll (by simpa using hcontra)
    have hbase : getLinkBaseHref (L ++ app) = getLinkBaseHref L :=
      getLinkBaseHref_append L app happrel
    have hskip :
        cands.foldl (mergeStep uj nb fb) ([], (L ++ app).map linkKey) =
          ([], (L ++ app).map linkKey) := by
      apply mergeFold_skip
      intro c hc p hp
      have := h5 c hc p hp
      simpa using this
    rw [hmerge1, mergeLinks]
    simp only [Option.getD_some, hbase, ← hnb, ← hfb, hskip]
    simp

/-- Witness for the amended C9 theorem: merging one `related` candidate
with an absolute href twice (the second call appends nothing). -/
theorem C9_merge_idempotent_witness :
    mergeLinks (fun _ t => t)
        (mergeLinks (fun _ t => t) { }
          [{ href := some "https://h/x" }] (some "https://h/"))
        [{ href := some "https://h/x" }] (some "https://h/") =
      mergeLinks (fun _ t => t) { }
        [{ href := some "https://h/x" }] (some "https://h/") :=
  C9_merge_dedup_and_idempotent.2 (fun _ t => t) { }
    [{ href := some "https://h/x" }] (some "https://h/")
    (by intro c hc; rw [List.mem_singleton.mp hc]; exact ⟨by decide, by decide⟩)

/-- C9 counterexample to unconditional idempotence: with no supplied
base, a rendered `self` link (absolute href) and a root-relative
candidate `/x`, the first merge appends only the `self` link; the
second merge derives a fallback base from that freshly merged `self`
link and appends a resolved `/x` link, so merging is not idempotent. -/
theorem C9_merge_not_idempotent_counterexample :
    (mergeLinks (fun _ t => t)
        (mergeLinks (fun _ t => t) { }
          [{ rel := some "self", href := some "https://h/collections/c/items/1" },
           { href := some "/x" }] none)
        [{ rel := some "self", href := some "https://h/collections/c/items/1" },
         { href := some "/x" }] none).links ≠
      (mergeLinks (fun _ t => t) { }
        [{ rel := some "self", href := some "https://h/collections/c/items/1" },
         { href := some "/x" }] none).links := by
  decide

/-! ## Claims C8 and C10: lemmas about the url model -/

theorem toNat_ofNat_small {n : Nat} (h : n < 55296) : (Char.ofNat n).toNat = n := by
  rw [Char.ofNat, dif_pos (Or.inl h)]
  rfl

theorem toLower_eq_self {c : Char} (h : ¬(65 ≤ c.toNat ∧ c.toNat ≤ 90)) :
    c.toLower = c := by
  simp only [Char.toLower]
  rw [if_neg h]

theorem toNat_toLower_upper {c : Char} (h : 65 ≤ c.toNat ∧ c.toNat ≤ 90) :
    c.toLower.toNat = c.toNat + 32 := by
  simp only [Char.toLower]
  rw [if_pos h]
  exact toNat_ofNat_small (by omega)

theorem toLower_toLower (c : Char) : c.toLower.toLower = c.toLower := by
  by_cases h : 65 ≤ c.toNat ∧ c.toNat ≤ 90
  · apply toLower_eq_self
    rw [toNat_toLower_upper h]
    omega
  · rw [toLower_eq_self h, toLower_eq_self h]

theorem isAsciiAlpha_toLower {c : Char} (h : isAsciiAlpha c = true) :
    isAsciiAlpha c.toLower = true := by
  by_cases hu : 65 ≤ c.toNat ∧ c.toNat ≤ 90
  · have ht := toNat_toLower_upper hu
    simp only [isAsciiAlpha, ht, Bool.or_eq_true, Bool.and_eq_true, decide_eq_true_eq]
    omega
  · rw [toLower_eq_self hu]
    exact h

theorem schemeChar_toLower {c : Char} (h : schemeChar c = true) :
    schemeChar c.toLower = true := by
  have h' : isAsciiAlpha c = true ∨ isAsciiDigit c = true ∨ c = '+' ∨ c = '-' ∨ c = '.' := by
    simpa [schemeChar, or_assoc] using h
  rcases h' with ha | hd | hc | hc | hc
  · simp [schemeChar, isAsciiAlpha_toLower ha]
  · have hd' : 48 ≤ c.toNat ∧ c.toNat ≤ 57 := by
      simpa [isAsciiDigit] using hd
    rw [toLower_eq_self (by omega)]
    exact h
  · subst hc
    decide
  · subst hc
    decide
  · subst hc
    decide

theorem schemeChar_ne_colon {c : Char} (h : schemeChar c = true) : c ≠ ':' := by
  intro hc
  subst hc
  exact absurd h (by decide)

/-- `map f` on a list of fixed points of `f`. -/
theorem mapSelf {f : Char → Char} :
    ∀ {l : List Char}, (∀ c ∈ l, f c = c) → l.map f = l := by
  intro l h
  induction l with
  | nil => rfl
  | cons c cs ih =>
    rw [List.map_cons, h c (List.mem_cons_self _ _),
      ih (fun c' hc' => h c' (List.mem_cons_of_mem _ hc'))]

/-! ### splitAtFirst specifications -/

theorem splitAtFirst_eq_append (p : Char → Bool) :
    ∀ l : List Char, (splitAtFirst p l).1 ++ (splitAtFirst p l).2 = l := by
  intro l
  induction l with
  | nil => rfl
  | cons c cs ih =>
    rw [splitAtFirst]
    by_cases hc : p c
    · rw [if_pos hc]
      rfl
    · rw [if_neg hc]
      dsimp only
      rw [List.cons_append, ih]

theorem splitAtFirst_fst_not (p : Char → Bool) :
    ∀ l : List Char, ∀ c ∈ (splitAtFirst p l).1, p c = false := by
  intro l
  induction l with
  | nil => intro c hc; simp [splitAtFirst] at hc
  | cons d cs ih =>
    intro c hc
    rw [splitAtFirst] at hc
    by_cases hd : p d
    · rw [if_pos hd] at hc
      simp at hc
    · rw [if_neg hd] at hc
      dsimp only at hc
      rcases List.mem_cons.mp hc with rfl | hc'
      · exact Bool.eq_false_iff.mpr hd
      · exact ih c hc'

theorem splitAtFirst_snd_head (p : Char → Bool) :
    ∀ l : List Char, (splitAtFirst p l).2 = [] ∨
      p ((splitAtFirst p l).2.headD ' ') = true := by
  intro l
  induction l with
  | nil => exact Or.inl rfl
  | cons d cs ih =>
    rw [splitAtFirst]
    by_cases hd : p d
    · rw [if_pos hd]
      exact Or.inr hd
    · rw [if_neg hd]
      exact ih

theorem splitAtFirst_not {p : Char → Bool} :
    ∀ {l : List Char}, (∀ c ∈ l, p c = false) → splitAtFirst p l = (l, []) := by
  intro l h
  induction l with
  | nil => rfl
  | cons c cs ih =>
    rw [splitAtFirst, if_neg (by simp [h c (List.mem_cons_self _ _)]),
      ih (fun c' hc' => h c' (List.mem_cons_of_mem _ hc'))]

theorem splitAtFirst_append {p : Char → Bool} {d : Char} (hd : p d = true)
    (b : List Char) :
    ∀ {a : List Char}, (∀ c ∈ a, p c = false) →
      splitAtFirst p (a ++ d :: b) = (a, d :: b) := by
  intro a
  induction a with
  | nil =>
    intro _
    simp [splitAtFirst, hd]
  | cons c cs ih =>
    intro ha
    rw [List.cons_append, splitAtFirst,
      if_neg (by simp [ha c (List.mem_cons_self _ _)]),
      ih (fun c' hc' => ha c' (List.mem_cons_of_mem _ hc'))]

/-! ### List utilities for the url lemmas -/

theorem dropWhileSuffix (p : Char → Bool) :
    ∀ l : List Char, ∃ t, l = t ++ l.dropWhile p := by
  intro l
  induction l with
  | nil => exact ⟨[], rfl⟩
  | cons c cs ih =>
    by_cases hc : p c
    · rcases ih with ⟨t, ht⟩
      refine ⟨c :: t, ?_⟩
      rw [List.dropWhile_cons, if_pos hc, List.cons_append, ← ht]
    · refine ⟨[], ?_⟩
      rw [List.dropWhile_cons, if_neg hc, List.nil_append]

theorem dropWhileHead (p : Char → Bool) :
    ∀ l : List Char, l.dropWhile p = [] ∨ p ((l.dropWhile p).headD ' ') = false := by
  intro l
  induction l with
  | nil => exact Or.inl rfl
  | cons c cs ih =>
    by_cases hc : p c
    · rw [List.dropWhile_cons, if_pos hc]
      exact ih
    · rw [List.dropWhile_cons, if_neg hc]
      exact Or.inr (by simpa using hc)

theorem lastDConcat (d a : Char) : ∀ l : List Char, (l ++ [a]).getLastD d = a := by
  intro l
  induction l with
  | nil => rfl
  | cons c cs ih =>
    rw [List.cons_append]
    rw [List.getLastD_cons]
    cases hcs : cs ++ [a] with
    | nil => exact absurd hcs (by simp)
    | cons x xs =>
      rw [← hcs]
      simpa using ih

theorem lastDReverse (d : Char) : ∀ l : List Char, l.reverse.getLastD d = l.headD d := by
  intro l
  cases l with
  | nil => rfl
  | cons c cs =>
    rw [List.reverse_cons]
    rw [lastDConcat]
    rfl

theorem headDReverse (d : Char) (l : List Char) : l.reverse.headD d = l.getLastD d := by
  have h := lastDReverse d l.reverse
  rw [List.reverse_reverse] at h
  exact h.symm

/-- The tail-stripped list followed by the stripped slashes gives back
the original list. -/
theorem rstripSlash_prefix (l : List Char) : ∃ t, l = rstripSlashL l ++ t := by
  rcases dropWhileSuffix (· = '/') l.reverse with ⟨t, ht⟩
  refine ⟨t.reverse, ?_⟩
  conv_lhs => rw [← List.reverse_reverse l, ht]
  rw [List.reverse_append, rstripSlashL]

theorem rstripSlash_append_slash (l : List Char) :
    rstripSlashL (l ++ ['/']) = rstripSlashL l := by
  rw [rstripSlashL, rstripSlashL, List.reverse_append]
  simp only [List.reverse_cons, List.reverse_nil, List.nil_append, List.singleton_append,
    List.dropWhile_cons]
  rw [if_pos (by simp)]

theorem rstripSlash_last (l : List Char) :
    rstripSlashL l = [] ∨ (rstripSlashL l).getLastD ' ' ≠ '/' := by
  rcases dropWhileHead (· = '/') l.reverse with h0 | hh
  · left
    rw [rstripSlashL, h0]
    rfl
  · right
    rw [rstripSlashL, lastDReverse]
    intro hc
    rw [hc] at hh
    simp at hh

theorem rstripSlash_eq_self {l : List Char} (hne : l ≠ [])
    (hl : l.getLastD ' ' ≠ '/') : rstripSlashL l = l := by
  rw [rstripSlashL]
  cases hr : l.reverse with
  | nil => exact absurd (by simpa using congrArg List.reverse hr) hne
  | cons c cs =>
    have hc : c = l.getLastD ' ' := by
      have := headDReverse ' ' l
      rw [hr] at this
      simpa using this
    have hcp : (decide (c = '/')) = false := by
      apply decide_eq_false
      rw [hc]
      exact hl
    rw [List.dropWhile_cons, if_neg (by simp [hcp]), ← hr, List.reverse_reverse]

theorem rstripSlash_headD {l : List Char} (hl : l.headD ' ' = '/') :
    rstripSlashL l = [] ∨ (rstripSlashL l).headD ' ' = '/' := by
  rcases rstripSlash_prefix l with ⟨t, ht⟩
  cases hr : rstripSlashL l with
  | nil => exact Or.inl rfl
  | cons c cs =>
    right
    rw [hr] at ht
    rw [ht] at hl
    simpa using hl

theorem rstripSlash_mem {l : List Char} {c : Char} (hc : c ∈ rstripSlashL l) :
    c ∈ l := by
  rcases rstripSlash_prefix l with ⟨t, ht⟩
  rw [ht]
  exact List.mem_append_left _ hc

/-- `cutAtMarkerL` returns a prefix of its input. -/
theorem cutAtMarker_prefix : ∀ l : List Char, ∃ t, l = cutAtMarkerL l ++ t := by
  intro l
  induction l with
  | nil => exact ⟨[], rfl⟩
  | cons c cs ih =>
    rw [cutAtMarkerL]
    by_cases hm : isPrefixL marker (c :: cs) = true
    · rw [if_pos hm]
      exact ⟨c :: cs, rfl⟩
    · rw [if_neg hm]
      rcases ih with ⟨t, ht⟩
      exact ⟨t, by rw [List.cons_append, ← ht]⟩

theorem cutAtMarker_head (c : Char) (cs : List Char) :
    cutAtMarkerL (c :: cs) = [] ∨ (cutAtMarkerL (c :: cs)).headD ' ' = c := by
  rw [cutAtMarkerL]
  by_cases hm : isPrefixL marker (c :: cs) = true
  · rw [if_pos hm]
    exact Or.inl rfl
  · rw [if_neg hm]
    exact Or.inr rfl

theorem cutAtMarker_mem {l : List Char} {c : Char} (hc : c ∈ cutAtMarkerL l) :
    c ∈ l := by
  rcases cutAtMarker_prefix l with ⟨t, ht⟩
  rw [ht]
  exact List.mem_append_left _ hc

/-! ### splitTailAt and splitNetlocL specifications -/

theorem splitTailAt_fst_not (ch : Char) (u : List Char) :
    ∀ c ∈ (splitTailAt ch u).1, c ≠ ch := by
  intro c hc
  rw [splitTailAt] at hc
  cases hsp : splitAtFirst (· = ch) u with
  | mk pre rest =>
    rw [hsp] at hc
    have hpre : ∀ c' ∈ pre, (decide (c' = ch)) = false := by
      intro c' hc'
      have := splitAtFirst_fst_not (· = ch) u c'
      rw [hsp] at this
      exact this hc'
    cases rest with
    | nil =>
      dsimp only at hc
      have hu : pre ++ ([] : List Char) = u := by
        have := splitAtFirst_eq_append (· = ch) u
        rw [hsp] at this
        exact this
      rw [List.append_nil] at hu
      rw [← hu] at hc
      simpa using hpre c hc
    | cons d post =>
      dsimp only at hc
      simpa using hpre c hc

theorem splitTailAt_fst_prefix (ch : Char) (u : List Char) :
    ∃ t, u = (splitTailAt ch u).1 ++ t := by
  rw [splitTailAt]
  cases hsp : splitAtFirst (· = ch) u with
  | mk pre rest =>
    have happ : pre ++ rest = u := by
      have := splitAtFirst_eq_append (· = ch) u
      rw [hsp] at this
      exact this
    cases rest with
    | nil => exact ⟨[], by simpa using happ.symm⟩
    | cons d post => exact ⟨d :: post, by simpa using happ.symm⟩

theorem splitTailAt_head {c ch : Char} (hne : c ≠ ch) (cs : List Char) :
    ∃ w, (splitTailAt ch (c :: cs)).1 = c :: w := by
  rw [splitTailAt]
  have hsp : splitAtFirst (· = ch) (c :: cs) =
      (c :: (splitAtFirst (· = ch) cs).1, (splitAtFirst (· = ch) cs).2) := by
    rw [splitAtFirst, if_neg (by simp [hne])]
  rw [hsp]
  cases hsnd : (splitAtFirst (· = ch) cs).2 with
  | nil => exact ⟨cs, rfl⟩
  | cons d post => exact ⟨(splitAtFirst (· = ch) cs).1, rfl⟩

theorem splitTailAt_self_head (ch : Char) (cs : List Char) :
    (splitTailAt ch (ch :: cs)).1 = [] := by
  rw [splitTailAt, splitAtFirst, if_pos (by simp)]

theorem splitTailAt_nil (ch : Char) : splitTailAt ch [] = ([], []) := rfl

theorem splitNetlocL_spec (u : List Char) :
    (splitNetlocL u).1 = [] ∨
      ∃ rest, u = '/' :: '/' :: rest ∧
        splitNetlocL u = splitAtFirst netlocDelim rest := by
  rw [splitNetlocL.eq_def]
  split
  · next rest => exact Or.inr ⟨rest, rfl, rfl⟩
  · exact Or.inl rfl

/-! ### urlunsplit evaluation -/

theorem listIsEmpty_false {l : List Char} (h : l ≠ []) : l.isEmpty = false := by
  cases l with
  | nil => exact absurd rfl h
  | cons c cs => rfl

theorem urlunsplitL_std {s nl p : List Char} (hs : s ≠ []) (hn : nl ≠ [])
    (hp : p.headD ' ' = '/') :
    urlunsplitL ⟨s, nl, p, [], []⟩ = s ++ ':' :: '/' :: '/' :: (nl ++ p) := by
  have hpne : p ≠ [] := by
    intro he
    rw [he] at hp
    simp at hp
  simp only [urlunsplitL, listIsEmpty_false hn, listIsEmpty_false hs,
    listIsEmpty_false hpne, hp, Bool.not_false, Bool.true_or, if_true,
    List.isEmpty_nil, Bool.not_true, Bool.false_and, Bool.and_false, if_false]
  simp [hp]

/-! ### urlsplit: roundtrip on standard base urls and output invariants -/

/-- Parsing `scheme://netloc/path` (scheme chars valid, netloc free of
delimiters, path starting with `/` and free of `?` and `#`) recovers
the components, with the scheme lowercased. -/
theorem urlsplitL_roundtrip {s nl p : List Char}
    (hs1 : s ≠ []) (hs2 : isAsciiAlpha (s.headD ' ') = true)
    (hs3 : ∀ c ∈ s, schemeChar c = true)
    (hnl : ∀ c ∈ nl, netlocDelim c = false)
    (hp1 : p.headD ' ' = '/')
    (hp2 : ∀ c ∈ p, c ≠ '?' ∧ c ≠ '#') :
    urlsplitL (s ++ ':' :: '/' :: '/' :: (nl ++ p)) = ⟨lowerAll s, nl, p, [], []⟩ := by
  have hcolon : splitAtFirst (· = ':') (s ++ ':' :: '/' :: '/' :: (nl ++ p)) =
      (s, ':' :: '/' :: '/' :: (nl ++ p)) := by
    apply splitAtFirst_append
    · simp
    · intro c hc
      exact decide_eq_false (schemeChar_ne_colon (hs3 c hc))
  have hall : s.all schemeChar = true := by
    rw [List.all_eq_true]
    intro x hx
    exact hs3 x hx
  have hg : (!s.isEmpty && isAsciiAlpha (s.headD ' ') && s.all schemeChar) = true := by
    rw [listIsEmpty_false hs1, hs2, hall]
    rfl
  have h1 : splitSchemeL (s ++ ':' :: '/' :: '/' :: (nl ++ p)) =
      (lowerAll s, '/' :: '/' :: (nl ++ p)) := by
    rw [splitSchemeL, hcolon]
    dsimp only
    rw [if_pos hg]
  obtain ⟨p', rfl⟩ : ∃ p', p = '/' :: p' := by
    cases p with
    | nil => simp at hp1
    | cons a t =>
      have ha : a = '/' := by simpa using hp1
      exact ⟨t, by rw [ha]⟩
  have h2 : splitNetlocL ('/' :: '/' :: (nl ++ '/' :: p')) = (nl, '/' :: p') := by
    rw [splitNetlocL]
    exact splitAtFirst_append (by decide) p' hnl
  have h3 : splitTailAt '#' ('/' :: p') = ('/' :: p', []) := by
    rw [splitTailAt,
      splitAtFirst_not (fun c hc => decide_eq_false ((hp2 c hc).2))]
  have h4 : splitTailAt '?' ('/' :: p') = ('/' :: p', []) := by
    rw [splitTailAt,
      splitAtFirst_not (fun c hc => decide_eq_false ((hp2 c hc).1))]
  rw [urlsplitL]
  rw [h1]
  dsimp only
  rw [h2]
  dsimp only
  rw [h3]
  dsimp only
  rw [h4]

/-- The scheme produced by `urlsplitL` is empty or a nonempty lowercase
run of scheme characters starting with an ASCII letter. -/
theorem urlsplitL_scheme_spec (url : List Char) :
    (urlsplitL url).scheme = [] ∨
      ((urlsplitL url).scheme ≠ [] ∧
       isAsciiAlpha ((urlsplitL url).scheme.headD ' ') = true ∧
       (∀ c ∈ (urlsplitL url).scheme, schemeChar c = true) ∧
       (∀ c ∈ (urlsplitL url).scheme, c.toLower = c)) := by
  have hsch : (urlsplitL url).scheme = (splitSchemeL url).1 := rfl
  rw [hsch, splitSchemeL]
  cases hsp : splitAtFirst (· = ':') url with
  | mk pre rest =>
    cases rest with
    | nil => exact Or.inl rfl
    | cons d post =>
      dsimp only
      by_cases hg : (!pre.isEmpty && isAsciiAlpha (pre.headD ' ') && pre.all schemeChar) = true
      · rw [if_pos hg]
        right
        have hg' := hg
        rw [Bool.and_eq_true, Bool.and_eq_true] at hg'
        obtain ⟨⟨hne, hha⟩, hall⟩ := hg'
        have hpre_ne : pre ≠ [] := by
          intro he
          rw [he] at hne
          simp at hne
        obtain ⟨a, t, rfl⟩ : ∃ a t, pre = a :: t := by
          cases pre with
          | nil => exact absurd rfl hpre_ne
          | cons a t => exact ⟨a, t, rfl⟩
        have hallmem : ∀ c ∈ a :: t, schemeChar c = true := by
          simpa [List.all_eq_true] using hall
        refine ⟨by simp [lowerAll], ?_, ?_, ?_⟩
        · simpa [lowerAll] using isAsciiAlpha_toLower (by simpa using hha)
        · intro c hc
          rw [lowerAll] at hc
          rcases List.mem_map.mp hc with ⟨c₀, hc₀, rfl⟩
          exact schemeChar_toLower (hallmem c₀ hc₀)
        · intro c hc
          rw [lowerAll] at hc
          rcases List.mem_map.mp hc with ⟨c₀, hc₀, rfl⟩
          exact toLower_toLower c₀
      · rw [if_neg hg]
        exact Or.inl rfl

/-- The netloc produced by `urlsplitL` contains no `/`, `?`, `#`. -/
theorem urlsplitL_netloc_spec (url : List Char) :
    ∀ c ∈ (urlsplitL url).netloc, netlocDelim c = false := by
  intro c hc
  have heq : (urlsplitL url).netloc = (splitNetlocL (splitSchemeL url).2).1 := rfl
  rw [heq] at hc
  rcases splitNetlocL_spec (splitSchemeL url).2 with h0 | ⟨rest, hu, hsp⟩
  · rw [h0] at hc
    simp at hc
  · rw [hsp] at hc
    exact splitAtFirst_fst_not _ rest c hc

/-- The path produced by `urlsplitL` contains no `?` and no `#`. -/
theorem urlsplitL_path_spec (url : List Char) :
    ∀ c ∈ (urlsplitL url).path, c ≠ '?' ∧ c ≠ '#' := by
  intro c hc
  have heq : (urlsplitL url).path =
      (splitTailAt '?' (splitTailAt '#' (splitNetlocL (splitSchemeL url).2).2).1).1 := rfl
  rw [heq] at hc
  refine ⟨splitTailAt_fst_not '?' _ c hc, ?_⟩
  rcases splitTailAt_fst_prefix '?'
      ((splitTailAt '#' (splitNetlocL (splitSchemeL url).2).2).1) with ⟨t, ht⟩
  have hmem : c ∈ (splitTailAt '#' (splitNetlocL (splitSchemeL url).2).2).1 := by
    rw [ht]
    exact List.mem_append_left _ hc
  exact splitTailAt_fst_not '#' _ c hmem

/-- When a netloc is present, the path produced by `urlsplitL` is
empty or starts with `/`. -/
theorem urlsplitL_path_start (url : List Char)
    (hn : (urlsplitL url).netloc ≠ []) :
    (urlsplitL url).path = [] ∨ (urlsplitL url).path.headD ' ' = '/' := by
  rcases splitNetlocL_spec (splitSchemeL url).2 with h0 | ⟨rest, hu, hsp⟩
  · exact absurd h0 hn
  · have heq : (urlsplitL url).path =
        (splitTailAt '?' (splitTailAt '#' (splitNetlocL (splitSchemeL url).2).2).1).1 := rfl
    rw [heq, hsp]
    rcases splitAtFirst_snd_head netlocDelim rest with h2 | h2
    · rw [h2]
      left
      rfl
    · obtain ⟨d, t, hd⟩ : ∃ d t, (splitAtFirst netlocDelim rest).2 = d :: t := by
        cases hc : (splitAtFirst netlocDelim rest).2 with
        | nil =>
          rw [hc] at h2
          simp [netlocDelim] at h2
        | cons d t => exact ⟨d, t, rfl⟩
      rw [hd] at h2
      rw [hd]
      have hdelim : netlocDelim d = true := by simpa using h2
      have hd3 : (d = '/' ∨ d = '?') ∨ d = '#' := by
        rw [netlocDelim] at hdelim
        simpa using hdelim
      rcases hd3 with (rfl | rfl) | rfl
      · rcases splitTailAt_head (show '/' ≠ '#' from by decide) t with ⟨w, hw⟩
        rw [hw]
        rcases splitTailAt_head (show '/' ≠ '?' from by decide) w with ⟨w', hw'⟩
        rw [hw']
        right
        rfl
      · rcases splitTailAt_head (show '?' ≠ '#' from by decide) t with ⟨w, hw⟩
        rw [hw, splitTailAt_self_head]
        left
        rfl
      · rw [splitTailAt_self_head]
        rw [splitTailAt_nil]
        left
        rfl

/-! ### The derived base path: properties of the normalization
pipeline -/

theorem ite_isEmpty_true {l d : List Char} (h : l = []) :
    (if l.isEmpty = true then d else l) = d := by
  subst h
  rfl

theorem ite_isEmpty_false {l d : List Char} (h : l ≠ []) :
    (if l.isEmpty = true then d else l) = l := by
  rw [listIsEmpty_false h]
  simp

/-- Case characterization of the trailing-slash block: the result is
`/` (when stripping leaves nothing) or the stripped path followed by
exactly one slash. -/
theorem ensureSingleTrailingSlash_eq (x : List Char) :
    (rstripSlashL x = [] ∧ ensureSingleTrailingSlash x = ['/']) ∨
    (rstripSlashL x ≠ [] ∧ (rstripSlashL x).getLastD ' ' ≠ '/' ∧
      ensureSingleTrailingSlash x = rstripSlashL x ++ ['/']) := by
  by_cases hnil : rstripSlashL x = []
  · left
    refine ⟨hnil, ?_⟩
    rw [ensureSingleTrailingSlash, ite_isEmpty_true hnil]
    rfl
  · right
    have hlast : (rstripSlashL x).getLastD ' ' ≠ '/' :=
      (rstripSlash_last x).resolve_left hnil
    refine ⟨hnil, hlast, ?_⟩
    rw [ensureSingleTrailingSlash, ite_isEmpty_false hnil, if_neg hlast]

theorem ensureSingleTrailingSlash_trailing (x : List Char) :
    rstripSlashL (ensureSingleTrailingSlash x) ++ ['/'] = ensureSingleTrailingSlash x := by
  rcases ensureSingleTrailingSlash_eq x with ⟨_, he⟩ | ⟨hnil, hlast, he⟩
  · rw [he]
    rfl
  · rw [he, rstripSlash_append_slash, rstripSlash_eq_self hnil hlast]

theorem ensureSingleTrailingSlash_head (x : List Char)
    (hx : x = [] ∨ x.headD ' ' = '/') :
    (ensureSingleTrailingSlash x).headD ' ' = '/' := by
  rcases ensureSingleTrailingSlash_eq x with ⟨_, he⟩ | ⟨hnil, _, he⟩
  · rw [he]
    rfl
  · have hhead : (rstripSlashL x).headD ' ' = '/' := by
      rcases hx with rfl | hx'
      · exact absurd rfl hnil
      · exact (rstripSlash_headD hx').resolve_left hnil
    rw [he]
    cases hr : rstripSlashL x with
    | nil => exact absurd hr hnil
    | cons c cs =>
      rw [hr] at hhead
      simpa using hhead

theorem ensureSingleTrailingSlash_mem {x : List Char} {c : Char}
    (hc : c ∈ ensureSingleTrailingSlash x) : c ∈ x ∨ c = '/' := by
  rcases ensureSingleTrailingSlash_eq x with ⟨_, he⟩ | ⟨_, _, he⟩
  · rw [he] at hc
    right
    simpa using hc
  · rw [he] at hc
    rcases List.mem_append.mp hc with hc' | hc'
    · exact Or.inl (rstripSlash_mem hc')
    · right
      simpa using hc'

/-- Case characterization of the marker-cut block. -/
theorem cutPathAtMarker_eq (p : List Char) :
    ∃ path1 : List Char,
      (∀ c ∈ path1, c ∈ p ∨ c = '/') ∧
      (p = [] ∨ p.headD ' ' = '/' → path1 = [] ∨ path1.headD ' ' = '/') ∧
      (cutPathAtMarker p = ['/'] ∨ (path1 ≠ [] ∧ cutPathAtMarker p = path1)) := by
  rw [cutPathAtMarker]
  have hmem0 : ∀ c ∈ (if p.isEmpty = true then ['/'] else p), c ∈ p ∨ c = '/' := by
    intro c hc
    by_cases he : p = []
    · rw [ite_isEmpty_true he] at hc
      right
      simpa using hc
    · rw [ite_isEmpty_false he] at hc
      exact Or.inl hc
  have hhead0 : p = [] ∨ p.headD ' ' = '/' →
      (if p.isEmpty = true then ['/'] else p).headD ' ' = '/' := by
    intro hp
    rcases hp with rfl | hh
    · rfl
    · by_cases he : p = []
      · rw [ite_isEmpty_true he]
        rfl
      · rw [ite_isEmpty_false he]
        exact hh
  set path0 := if p.isEmpty = true then ['/'] else p with hdef0
  refine ⟨if containsMarker path0 = true then cutAtMarkerL path0 else path0,
    ?_, ?_, ?_⟩
  · intro c hc
    by_cases hm : containsMarker path0 = true
    · rw [if_pos hm] at hc
      exact hmem0 c (cutAtMarker_mem hc)
    · rw [if_neg hm] at hc
      exact hmem0 c hc
  · intro hp
    have hh0 := hhead0 hp
    by_cases hm : containsMarker path0 = true
    · rw [if_pos hm]
      cases hc : path0 with
      | nil =>
        rw [hc] at hh0
        simp at hh0
      | cons a t =>
        have ha : a = '/' := by
          rw [hc] at hh0
          simpa using hh0
        rcases cutAtMarker_head a t with h0 | hh
        · left
          exact h0
        · right
          rw [hh]
          exact ha
    · rw [if_neg hm]
      exact Or.inr hh0
  · by_cases he : (if containsMarker path0 = true then cutAtMarkerL path0 else path0) = []
    · left
      rw [ite_isEmpty_true he]
    · right
      exact ⟨he, ite_isEmpty_false he⟩

theorem cutPathAtMarker_ne_nil (p : List Char) : cutPathAtMarker p ≠ [] := by
  rcases cutPathAtMarker_eq p with ⟨path1, _, _, h0 | ⟨hne, he⟩⟩
  · rw [h0]
    simp
  · rw [he]
    exact hne

theorem cutPathAtMarker_head (p : List Char)
    (hp : p = [] ∨ p.headD ' ' = '/') :
    (cutPathAtMarker p).headD ' ' = '/' := by
  rcases cutPathAtMarker_eq p with ⟨path1, _, hhead, h0 | ⟨hne, he⟩⟩
  · rw [h0]
    rfl
  · rw [he]
    rcases hhead hp with h1 | h1
    · exact absurd h1 hne
    · exact h1

theorem cutPathAtMarker_mem {p : List Char} {c : Char}
    (hc : c ∈ cutPathAtMarker p) : c ∈ p ∨ c = '/' := by
  rcases cutPathAtMarker_eq p with ⟨path1, hmem, _, h0 | ⟨_, he⟩⟩
  · rw [h0] at hc
    right
    simpa using hc
  · rw [he] at hc
    exact hmem c hc

theorem deriveBasePath_trailing (p : List Char) :
    rstripSlashL (deriveBasePath p) ++ ['/'] = deriveBasePath p :=
  ensureSingleTrailingSlash_trailing _

theorem deriveBasePath_head (p : List Char)
    (hp : p = [] ∨ p.headD ' ' = '/') :
    (deriveBasePath p).headD ' ' = '/' :=
  ensureSingleTrailingSlash_head _ (Or.inr (cutPathAtMarker_head p hp))

theorem deriveBasePath_mem {p : List Char} {c : Char}
    (hc : c ∈ deriveBasePath p) : c ∈ p ∨ c = '/' := by
  rcases ensureSingleTrailingSlash_mem hc with hc' | hc'
  · exact cutPathAtMarker_mem hc'
  · exact Or.inr hc'

theorem deriveBasePath_ne_nil (p : List Char) : deriveBasePath p ≠ [] := by
  intro hcontra
  have := deriveBasePath_trailing p
  rw [hcontra] at this
  simp at this

/-- A derived base path whose characters contain no
`'/collections/'` marker is a fixed point of the pipeline. -/
theorem deriveBasePath_fixed {p : List Char}
    (hm : containsMarker (deriveBasePath p) = false) :
    deriveBasePath (deriveBasePath p) = deriveBasePath p := by
  set b := deriveBasePath p with hb
  have hbne : b ≠ [] := deriveBasePath_ne_nil p
  have htrail : rstripSlashL b ++ ['/'] = b := deriveBasePath_trailing p
  have hcut : cutPathAtMarker b = b := by
    rw [cutPathAtMarker, ite_isEmpty_false hbne,
      if_neg (show ¬(containsMarker b = true) from by simp [hm]),
      ite_isEmpty_false hbne]
  rw [deriveBasePath, hcut]
  rcases ensureSingleTrailingSlash_eq b with ⟨hnil, he⟩ | ⟨hnil, hlast, he⟩
  · rw [he]
    rw [hnil] at htrail
    simpa using htrail
  · rw [he]
    exact htrail

/-! ### Characterization of derived bases and claim C10 -/

theorem ne_nil_of_isEmpty_false {l : List Char} (h : l.isEmpty = false) : l ≠ [] := by
  intro he
  rw [he] at h
  simp at h

set_option maxHeartbeats 2000000 in
/-- A successfully derived base splits back into its nonempty scheme,
nonempty netloc and normalized path (starting with `/` and carrying
exactly one trailing `/`), with empty query and fragment; and it is a
fixed point of the derivation whenever its path does not itself
contain `'/collections/'`. -/
theorem deriveBaseHrefL_spec {url bl : List Char}
    (hd : deriveBaseHrefL url = some bl) :
    (urlsplitL bl).scheme ≠ [] ∧
    (urlsplitL bl).netloc ≠ [] ∧
    (urlsplitL bl).path.headD ' ' = '/' ∧
    rstripSlashL (urlsplitL bl).path ++ ['/'] = (urlsplitL bl).path ∧
    (urlsplitL bl).query = [] ∧
    (urlsplitL bl).fragment = [] ∧
    (containsMarker (urlsplitL bl).path = false → deriveBaseHrefL bl = some bl) := by
  rw [deriveBaseHrefL] at hd
  by_cases hue : url.isEmpty = true
  · rw [if_pos hue] at hd
    exact absurd hd (by simp)
  · rw [if_neg hue] at hd
    by_cases hsn : ((urlsplitL url).scheme.isEmpty || (urlsplitL url).netloc.isEmpty) = true
    · rw [if_pos hsn] at hd
      exact absurd hd (by simp)
    · rw [if_neg hsn] at hd
      simp only [Bool.or_eq_true, not_or, Bool.not_eq_true] at hsn
      have hs : (urlsplitL url).scheme ≠ [] := ne_nil_of_isEmpty_false hsn.1
      have hn : (urlsplitL url).netloc ≠ [] := ne_nil_of_isEmpty_false hsn.2
      set s := (urlsplitL url).scheme with hsdef
      set n := (urlsplitL url).netloc with hndef
      set P := deriveBasePath (urlsplitL url).path with hPdef
      have hbl : bl = urlunsplitL ⟨s, n, P, [], []⟩ := by
        injection hd with hd'
        exact hd'.symm
      have hPhead : P.headD ' ' = '/' := by
        rw [hPdef]
        exact deriveBasePath_head _ (urlsplitL_path_start url hn)
      rcases urlsplitL_scheme_spec url with h0 | ⟨_, hs2, hs3, hs4⟩
      · exact absurd h0 hs
      have hstd : urlunsplitL ⟨s, n, P, [], []⟩ = s ++ ':' :: '/' :: '/' :: (n ++ P) :=
        urlunsplitL_std hs hn hPhead
      have hPsafe : ∀ c ∈ P, c ≠ '?' ∧ c ≠ '#' := by
        intro c hc
        rw [hPdef] at hc
        rcases deriveBasePath_mem hc with hc' | rfl
        · exact urlsplitL_path_spec url c hc'
        · exact ⟨by decide, by decide⟩
      have hround : urlsplitL bl = ⟨lowerAll s, n, P, [], []⟩ := by
        rw [hbl, hstd]
        exact urlsplitL_roundtrip hs hs2 hs3 (urlsplitL_netloc_spec url) hPhead hPsafe
      have hlow : lowerAll s = s := mapSelf hs4
      rw [hlow] at hround
      refine ⟨?_, ?_, ?_, ?_, ?_, ?_, ?_⟩
      · rw [hround]
        exact hs
      · rw [hround]
        exact hn
      · rw [hround]
        exact hPhead
      · rw [hround]
        rw [hPdef]
        exact deriveBasePath_trailing _
      · rw [hround]
      · rw [hround]
      · intro hmarker
        rw [hround] at hmarker
        have hblne : bl ≠ [] := by
          rw [hbl, hstd]
          simp
        have hfix : deriveBasePath P = P := by
          rw [hPdef]
          exact deriveBasePath_fixed (by rw [← hPdef]; exact hmarker)
        rw [deriveBaseHrefL, if_neg (by simp [listIsEmpty_false hblne]), hround]
        dsimp only
        rw [if_neg (by simp [listIsEmpty_false hs, listIsEmpty_false hn]), hfix,
          ← hbl]

theorem asString_toList (l : List Char) : (List.asString l).toList = l := rfl

theorem deriveBaseHref_some {u b : String}
    (h : deriveBaseHref (some u) = some b) :
    deriveBaseHrefL u.toList = some b.toList := by
  rw [deriveBaseHref] at h
  cases hd : deriveBaseHrefL u.toList with
  | none =>
    rw [hd] at h
    simp at h
  | some bl =>
    rw [hd] at h
    simp only [Option.map_some'] at h
    injection h with h
    rw [← h, asString_toList]

theorem deriveBaseHref_of_L {b : String}
    (h : deriveBaseHrefL b.toList = some b.toList) :
    deriveBaseHref (some b) = some b := by
  rw [deriveBaseHref, h, Option.map_some']
  rfl

/-- C10 (amended): every non-`None` result `b` of `_derive_base_href`
has a scheme and a host, an empty query and fragment, and a path that
starts with `/` and ends with exactly one trailing `/`; and whenever
the derived path does not itself contain a `'/collections/'` segment
(the one exception, reachable only from inputs whose path ends in the
bare segment `/collections`), `_derive_base_href(b) = b`. -/
theorem C10_derive_base_normalized (url b : String)
    (h : deriveBaseHref (some url) = some b) :
    (urlsplitL b.toList).scheme ≠ [] ∧
    (urlsplitL b.toList).netloc ≠ [] ∧
    (urlsplitL b.toList).path.headD ' ' = '/' ∧
    rstripSlashL (urlsplitL b.toList).path ++ ['/'] = (urlsplitL b.toList).path ∧
    (urlsplitL b.toList).query = [] ∧
    (urlsplitL b.toList).fragment = [] ∧
    (containsMarker (urlsplitL b.toList).path = false →
      deriveBaseHref (some b) = some b) := by
  have hL := deriveBaseHref_some h
  rcases deriveBaseHrefL_spec hL with ⟨h1, h2, h3, h4, h5, h6, h7⟩
  exact ⟨h1, h2, h3, h4, h5, h6, fun hm => deriveBaseHref_of_L (h7 hm)⟩

/-- Witness for the amended C10 theorem at a url carrying a path
prefix, a collection segment, and a query. -/
theorem C10_derive_base_normalized_witness :
    (urlsplitL ("https://example.com/geoapi/" : String).toList).scheme ≠ [] ∧
    (urlsplitL ("https://example.com/geoapi/" : String).toList).netloc ≠ [] ∧
    (urlsplitL ("https://example.com/geoapi/" : String).toList).path.headD ' ' = '/' ∧
    rstripSlashL (urlsplitL ("https://example.com/geoapi/" : String).toList).path ++ ['/'] =
      (urlsplitL ("https://example.com/geoapi/" : String).toList).path ∧
    (urlsplitL ("https://example.com/geoapi/" : String).toList).query = [] ∧
    (urlsplitL ("https://example.com/geoapi/" : String).toList).fragment = [] ∧
    (containsMarker (urlsplitL ("https://example.com/geoapi/" : String).toList).path = false →
      deriveBaseHref (some "https://example.com/geoapi/") = some "https://example.com/geoapi/") :=
  C10_derive_base_normalized "https://example.com/geoapi/collections/obj?x=1"
    "https://example.com/geoapi/" (by rfl)

/-- C10 counterexample: base derivation is not idempotent and its
result can contain a `'/collections/'` segment: the input
`http://h/collections` (no trailing slash) derives to
`http://h/collections/`, which re-derives to `http://h/`. -/
theorem C10_counterexample_not_idempotent :
    deriveBaseHref (some "http://h/collections") = some "http://h/collections/" ∧
    deriveBaseHref (some "http://h/collections/") = some "http://h/" ∧
    ("http://h/collections/" : String) ≠ "http://h/" ∧
    containsMarker (urlsplitL ("http://h/collections/" : String).toList).path = true := by
  refine ⟨rfl, rfl, by decide, rfl⟩

/-! ## Claim C8 -/

theorem eq_nil_of_isEmpty {l : List Char} (h : l.isEmpty = true) : l = [] := by
  cases l with
  | nil => rfl
  | cons c cs => simp at h

theorem stringIsEmpty_false {s : String} (h : s.toList ≠ []) : s.isEmpty = false := by
  rw [Bool.eq_false_iff]
  intro htrue
  have hs : s = "" := (String.isEmpty_iff s).mp htrue
  rw [hs] at h
  exact h rfl

theorem headD_append_left {a : List Char} (b : List Char) (d : Char)
    (h : a ≠ []) : (a ++ b).headD d = a.headD d := by
  cases a with
  | nil => exact absurd rfl h
  | cons c cs => rfl

theorem normalizeBaseHref_some {u b : String}
    (h : normalizeBaseHref (some u) = some b) : deriveBaseHref (some u) = some b := by
  rw [normalizeBaseHref] at h
  by_cases hu : u.isEmpty = true
  · rw [if_pos hu] at h
    exact absurd h (by simp)
  · rw [if_neg hu] at h
    exact h

/-- Full evaluation of `urlunsplit` on a component tuple with scheme,
netloc, a path starting with `/`, and arbitrary query and fragment. -/
theorem urlunsplitL_general {s nl p q f : List Char} (hs : s ≠ []) (hn : nl ≠ [])
    (hp : p.headD ' ' = '/') :
    urlunsplitL ⟨s, nl, p, q, f⟩ =
      ((s ++ ':' :: '/' :: '/' :: (nl ++ p)) ++
        (if q.isEmpty then [] else '?' :: q)) ++
        (if f.isEmpty then [] else '#' :: f) := by
  have hpne : p ≠ [] := by
    intro he
    rw [he] at hp
    simp at hp
  by_cases hq : q.isEmpty = true <;> by_cases hf : f.isEmpty = true <;>
    simp only [urlunsplitL, listIsEmpty_false hn, listIsEmpty_false hs,
      listIsEmpty_false hpne, hp, hq, hf, Bool.not_false, Bool.not_true,
      Bool.true_or, if_true, if_false] <;>
    simp [hp, List.append_assoc]

/-- Evaluation of `urlunsplit` on a scheme-less, authority-less tuple
whose path starts with `/` but not `//`. -/
theorem urlunsplitL_relative {p q f : List Char} (hpp : ¬ p.take 2 = ['/', '/']) :
    urlunsplitL ⟨[], [], p, q, f⟩ =
      (p ++ (if q.isEmpty then [] else '?' :: q)) ++
        (if f.isEmpty then [] else '#' :: f) := by
  by_cases hq : q.isEmpty = true <;> by_cases hf : f.isEmpty = true <;>
    simp only [urlunsplitL, List.isEmpty_nil, Bool.not_true, Bool.false_or,
      decide_eq_true_eq, hq, hf, Bool.not_false, if_true, if_false] <;>
    rw [if_neg hpp] <;>
    simp [hq, hf]

/-- The resolution loop keeps a non-absolute last result (or nothing)
when no base candidate yields an absolute resolution. -/
theorem resolveLoop_not_abs (uj : String → String → String) (hv : String) :
    ∀ bs : List String,
      (∀ bc ∈ bs, isAbsoluteHref (some (resolveLinkHref uj hv (some bc))) = false) →
      resolveLoop uj hv bs = none ∨
        ∃ r, resolveLoop uj hv bs = some r ∧ isAbsoluteHref (some r) = false := by
  intro bs
  induction bs with
  | nil =>
    intro _
    exact Or.inl rfl
  | cons b1 rest ih =>
    intro h
    cases rest with
    | nil =>
      right
      exact ⟨resolveLinkHref uj hv (some b1), rfl, h b1 (List.mem_cons_self _ _)⟩
    | cons b2 rest2 =>
      rw [resolveLoop]
      rw [if_neg (by simp [h b1 (List.mem_cons_self _ _)])]
      exact ih (fun bc hbc => h bc (List.mem_cons_of_mem _ hbc))

set_option maxHeartbeats 2000000 in
/-- C8 (amended): (1) a root-relative rendered href (beginning with
`/` but not `//`) resolved against a normalized base yields exactly the
scheme and host of the base followed by the base's path prefix
(trailing slashes stripped) concatenated with the href — the base path
is preserved, never replaced; (2) an already-absolute href is used
unchanged; (3) when no candidate base yields an absolute result the
link is dropped with a warning; (4) consequently every link in the
merged output either pre-existed on the feature or has an absolute
href — a relative href never appears; and (5) concretely,
`/items/42` against the base `https://example.com/geoapi/` resolves to
`https://example.com/geoapi/items/42`, ending in `/geoapi/items/42`
and not `/items/42`. -/
theorem C8_href_resolution :
    (∀ (uj : String → String → String) (url b href : String),
      normalizeBaseHref (some url) = some b → rootRelativeHref href = true →
      (resolveLinkHref uj href (some b)).toList =
        (urlsplitL b.toList).scheme ++ ':' :: '/' :: '/' ::
          ((urlsplitL b.toList).netloc ++
            (rstripSlashL (urlsplitL b.toList).path ++ href.toList))) ∧
    (∀ (uj : String → String → String) (c : Link) (nb fb : Option String),
      isAbsoluteHref c.href = true →
      ∃ p, prepareLink uj c nb fb = (some p, false) ∧ p.href = c.href) ∧
    (∀ (uj : String → String → String) (c : Link) (nb fb : Option String)
      (hv : String),
      c.href = some hv → hv.isEmpty = false → isAbsoluteHref (some hv) = false →
      (∀ bc ∈ baseCandidates nb fb,
        isAbsoluteHref (some (resolveLinkHref uj hv (some bc))) = false) →
      prepareLink uj c nb fb = (none, true)) ∧
    (∀ (uj : String → String → String) (F : Feature) (cands : List Link)
      (b : Option String) (l : Link),
      l ∈ (mergeLinks uj F cands b).links.getD [] →
      l ∈ F.links.getD [] ∨ isAbsoluteHref l.href = true) ∧
    resolveLinkHref (fun _ t => t) "/items/42" (some "https://example.com/geoapi/") =
      "https://example.com/geoapi/items/42" := by
  refine ⟨?_, ?_, ?_, ?_, rfl⟩
  · intro uj url b href hnorm hrel
    have hder := deriveBaseHref_some (normalizeBaseHref_some hnorm)
    rcases deriveBaseHrefL_spec hder with ⟨hbs, hbn, hbhead, hbtrail, hbq, hbf, hrest⟩
    rw [rootRelativeHref] at hrel
    simp only [Bool.and_eq_true, Bool.not_eq_true', decide_eq_true_eq,
      decide_eq_false_iff_not] at hrel
    obtain ⟨⟨⟨⟨hsch, hnet⟩, hhead⟩, htake⟩, hsplit⟩ := hrel
    have hpathne : (urlsplitL href.toList).path ≠ [] := by
      intro he
      rw [he] at hhead
      simp at hhead
    have hhrefeq : href.toList =
        ((urlsplitL href.toList).path ++
          (if (urlsplitL href.toList).query.isEmpty then []
            else '?' :: (urlsplitL href.toList).query)) ++
          (if (urlsplitL href.toList).fragment.isEmpty then []
            else '#' :: (urlsplitL href.toList).fragment) :=
      hsplit.symm.trans (urlunsplitL_relative htake)
    have hrefne : href.toList ≠ [] := by
      intro he
      rw [hhrefeq] at he
      rcases List.append_eq_nil.mp (List.append_eq_nil.mp he).1 with ⟨h1, _⟩
      exact hpathne h1
    have hbne : b.toList ≠ [] := by
      intro he
      rw [he] at hbs
      exact hbs rfl
    rw [resolveLinkHref, if_neg (by simp [stringIsEmpty_false hrefne]),
      if_neg (show ¬((!(urlsplitL href.toList).scheme.isEmpty) = true) from by
        simp only [eq_nil_of_isEmpty hsch]
        simp)]
    dsimp only
    rw [if_pos (by simp [stringIsEmpty_false hbne]), if_pos hhead,
      ite_isEmpty_false
        (fun he => hpathne (List.append_eq_nil.mp he).2),
      asString_toList]
    have hcombhead :
        (rstripSlashL (urlsplitL b.toList).path ++ (urlsplitL href.toList).path).headD ' ' = '/' := by
      rcases rstripSlash_headD hbhead with h0 | h0
      · rw [h0, List.nil_append]
        exact hhead
      · by_cases hr0 : rstripSlashL (urlsplitL b.toList).path = []
        · rw [hr0, List.nil_append]
          exact hhead
        · rw [headD_append_left _ _ hr0]
          exact h0
    rw [urlunsplitL_general hbs hbn hcombhead]
    conv_rhs => rw [hhrefeq]
    simp [List.append_assoc]
  · intro uj c nb fb habs
    cases hh : c.href with
    | none =>
      rw [hh] at habs
      simp [isAbsoluteHref] at habs
    | some hv =>
      rw [hh] at habs
      have hvne : hv.isEmpty = false := by
        by_cases h : hv.isEmpty = true
        · rw [isAbsoluteHref, if_pos h] at habs
          exact absurd habs (by simp)
        · exact Bool.eq_false_iff.mpr h
      refine ⟨{ rel := some (relDefault c),
                type := some (typeDefault c),
                href := some hv }, ?_, rfl⟩
      rw [prepareLink, hh]
      dsimp only
      rw [if_neg (show ¬(hv.isEmpty = true) from by simp [hvne]), if_pos habs]
      dsimp only
      rw [if_neg (show ¬((hv.isEmpty || !isAbsoluteHref (some hv)) = true) from by
        simp [hvne, habs])]
  · intro uj c nb fb hv hh hvne habs hall
    rw [prepareLink, hh]
    dsimp only
    rw [if_neg (show ¬(hv.isEmpty = true) from by simp [hvne]),
      if_neg (show ¬(isAbsoluteHref (some hv) = true) from by simp [habs])]
    rcases resolveLoop_not_abs uj hv (baseCandidates nb fb) hall with h0 | ⟨r, hr, hrabs⟩
    · rw [h0]
    · rw [hr]
      dsimp only
      rw [if_pos (by simp [hrabs])]
  · intro uj F cands b l hl
    rcases mergeFold_spec uj (normalizeBaseHref b)
        (match getLinkBaseHref (F.links.getD []) with
          | some bb => some bb
          | none => normalizeBaseHref b)
        cands [] ((F.links.getD []).map linkKey) with ⟨app, h1, h2, h3, h4, h5, h6⟩
    rw [mergeLinks] at hl
    simp only [h1, Option.getD_some] at hl
    rcases List.mem_append.mp hl with hl' | hl'
    · exact Or.inl hl'
    · rcases h6 l hl' with ⟨c, hc, hpc⟩
      exact Or.inr (prepareLink_some_spec hpc).2

/-- Witness for the amended C8 theorem: part 1 at the base derived
from a collection url with path prefix `/geoapi/` and the href
`/items/42`; part 2 at an absolute candidate href. -/
theorem C8_href_resolution_witness :
    (resolveLinkHref (fun _ t => t) "/items/42"
        (some "https://example.com/geoapi/")).toList =
      (urlsplitL ("https://example.com/geoapi/" : String).toList).scheme ++
        ':' :: '/' :: '/' ::
        ((urlsplitL ("https://example.com/geoapi/" : String).toList).netloc ++
          (rstripSlashL (urlsplitL ("https://example.com/geoapi/" : String).toList).path ++
            ("/items/42" : String).toList)) ∧
    ∃ p, prepareLink (fun _ t => t) { href := some "https://a/b" } none none =
        (some p, false) ∧ p.href = some ("https://a/b" : String) :=
  ⟨C8_href_resolution.1 (fun _ t => t) "https://example.com/geoapi/collections/x"
      "https://example.com/geoapi/" "/items/42" (by rfl) (by rfl),
    C8_href_resolution.2.1 (fun _ t => t) { href := some "https://a/b" } none none
      (by rfl)⟩

/-- C8 counterexample: the claim quantifies over every href beginning
with `/`, but an href beginning with `//` is parsed as an authority:
its host part is discarded by the path-join, so the resolved href is
not the base prefix concatenated with the href. -/
theorem C8_counterexample_protocol_relative :
    ("//evil/x" : String).toList.headD ' ' = '/' ∧
    resolveLinkHref (fun _ t => t) "//evil/x" (some "https://example.com/geoapi/") =
      "https://example.com/geoapi/x" ∧
    ("https://example.com/geoapi/x" : String) ≠ "https://example.com/geoapi//evil/x" := by
  refine ⟨rfl, rfl, by decide⟩

end PgExt
